import Mathlib

/-!
Verification development for the aws-s3-sns-sync repository.

The repository mirrors an S3 bucket into a local directory.  This file gives a
shallow embedding of the parts of the source that the verified properties talk
about:

* `src/utils/stringUtils.ts` — the UTF-8 binary comparator used by both the
  remote and the local listing (`compareStringsUtf8BinaryOrder`);
* `src/sync.ts` — the reconciler merge loop (`sync`);
* `src/utils/s3Utils.ts` — remote listing accumulation and sort (`getS3List`);
* `src/AsyncOpQueue.ts` — the bounded, key-partitioned task queue;
* `src/utils/transformers.ts` — the key transformers;
* `src/filesystemOps.ts` — `rmdirRecursive` guard logic;
* `src/snsServer.ts` — the notification request listener and record dispatch.

JavaScript strings are modelled by Lean `String` / `List Char`; the byte
comparator re-encodes to UTF-8 exactly as `Buffer.from(s, "utf-8")` does.
Machine integers are modelled by `Nat` / `Int` (the quantities involved —
sizes, millisecond timestamps, counters — stay far below 2^53, where
JavaScript numbers are exact integers).
-/

/-! ## UTF-8 encoding and the binary comparator (src/utils/stringUtils.ts) -/

/-- UTF-8 encoding of a unicode scalar value, written with division and
remainder (for a scalar value this is exactly what `Buffer.from(s, "utf-8")`
produces per character). -/
def utf8Enc (v : Nat) : List Nat :=
  if v < 0x80 then [v]
  else if v < 0x800 then [0xC0 + v / 64, 0x80 + v % 64]
  else if v < 0x10000 then
    [0xE0 + v / 4096, 0x80 + v / 64 % 64, 0x80 + v % 64]
  else
    [0xF0 + v / 262144, 0x80 + v / 4096 % 64, 0x80 + v / 64 % 64, 0x80 + v % 64]

/-- Bytes of one character. -/
def charBytes (c : Char) : List Nat := utf8Enc c.toNat

/-- Bytes of a character list. -/
def charsBytes : List Char → List Nat
  | [] => []
  | c :: rest => charBytes c ++ charsBytes rest

/-- Bytes of a string, as `Buffer.from(s, "utf-8")` yields them. -/
def strBytes (s : String) : List Nat := charsBytes s.data

/-- `Buffer.compare`: lexicographic comparison of byte sequences, a strict
prefix ordering before the longer sequence; returns -1, 0 or 1. -/
def byteCompare : List Nat → List Nat → Int
  | [], [] => 0
  | [], _ :: _ => -1
  | _ :: _, [] => 1
  | a :: as, b :: bs =>
    if a < b then -1 else if b < a then 1 else byteCompare as bs

/-- Model of `compareStringsUtf8BinaryOrder` from `src/utils/stringUtils.ts`:
compare the strings in UTF-8 binary order via their byte encodings. -/
def compareStringsUtf8BinaryOrder (a b : String) : Int :=
  byteCompare (strBytes a) (strBytes b)

theorem byteCompare_self : ∀ l : List Nat, byteCompare l l = 0 := by
  intro l
  induction l with
  | nil => rfl
  | cons a as ih => simp [byteCompare, ih]

theorem byteCompare_range :
    ∀ u v : List Nat, byteCompare u v = -1 ∨ byteCompare u v = 0 ∨
      byteCompare u v = 1 := by
  intro u
  induction u with
  | nil => intro v; cases v <;> simp [byteCompare]
  | cons a as ih =>
    intro v
    cases v with
    | nil => simp [byteCompare]
    | cons b bs =>
      by_cases h1 : a < b
      · simp [byteCompare, h1]
      · by_cases h2 : b < a
        · simp [byteCompare, h1, h2]
        · simpa [byteCompare, h1, h2] using ih bs

theorem byteCompare_eq_zero :
    ∀ u v : List Nat, byteCompare u v = 0 → u = v := by
  intro u
  induction u with
  | nil => intro v h; cases v <;> simp_all [byteCompare]
  | cons a as ih =>
    intro v h
    cases v with
    | nil => simp [byteCompare] at h
    | cons b bs =>
      by_cases h1 : a < b
      · simp [byteCompare, h1] at h
      · by_cases h2 : b < a
        · simp [byteCompare, h1, h2] at h
        · have hab : a = b := Nat.le_antisymm (Nat.not_lt.mp h2) (Nat.not_lt.mp h1)
          simp [byteCompare, h1, h2] at h
          simp [hab, ih bs h]

theorem byteCompare_antisymm :
    ∀ u v : List Nat, byteCompare u v = - byteCompare v u := by
  intro u
  induction u with
  | nil => intro v; cases v <;> simp [byteCompare]
  | cons a as ih =>
    intro v
    cases v with
    | nil => simp [byteCompare]
    | cons b bs =>
      by_cases h1 : a < b
      · have h2 : ¬ b < a := by omega
        simp [byteCompare, h1, h2]
      · by_cases h2 : b < a
        · simp [byteCompare, h1, h2]
        · simp [byteCompare, h1, h2, ih bs]

theorem byteCompare_append_left :
    ∀ w u v : List Nat, byteCompare (w ++ u) (w ++ v) = byteCompare u v := by
  intro w
  induction w with
  | nil => intro u v; simp
  | cons a as ih => intro u v; simp [byteCompare, ih]

theorem byteCompare_trans_nonpos :
    ∀ u v w : List Nat, byteCompare u v ≤ 0 → byteCompare v w ≤ 0 →
      byteCompare u w ≤ 0 := by
  intro u
  induction u with
  | nil => intro v w _ _; cases w <;> simp [byteCompare]
  | cons a as ih =>
    intro v w h1 h2
    cases v with
    | nil => simp [byteCompare] at h1
    | cons b bs =>
      cases w with
      | nil => simp [byteCompare] at h2
      | cons c cs =>
        by_cases hab : a < b
        · by_cases hbc : b < c
          · have : a < c := by omega
            simp [byteCompare, this]
          · by_cases hcb : c < b
            · simp [byteCompare, hcb, Nat.not_lt.mpr (Nat.le_of_lt hcb)] at h2
            · have hbceq : b = c := by omega
              have hac : a < c := by omega
              simp [byteCompare, hac]
        · by_cases hba : b < a
          · simp [byteCompare, hab, hba] at h1
          · have habeq : a = b := by omega
            by_cases hbc : b < c
            · have hac : a < c := by omega
              simp [byteCompare, hac]
            · by_cases hcb : c < b
              · simp [byteCompare, hcb, Nat.not_lt.mpr (Nat.le_of_lt hcb)] at h2
              · have hbceq : b = c := by omega
                have hac1 : ¬ a < c := by omega
                have hac2 : ¬ c < a := by omega
                simp [byteCompare, hab, hba] at h1
                simp [byteCompare, hbc, hcb] at h2
                simpa [byteCompare, hac1, hac2] using ih bs cs h1 h2

theorem charsBytes_append :
    ∀ l1 l2 : List Char, charsBytes (l1 ++ l2) = charsBytes l1 ++ charsBytes l2 := by
  intro l1
  induction l1 with
  | nil => intro l2; simp [charsBytes]
  | cons c rest ih => intro l2; simp [charsBytes, ih]

theorem utf8Enc_pc (n m : Nat) (r s : List Nat)
    (hn : n < 0x110000) (hm : m < 0x110000)
    (h : utf8Enc n ++ r = utf8Enc m ++ s) : n = m ∧ r = s := by
  unfold utf8Enc at h
  split_ifs at h <;>
    simp only [List.cons_append, List.nil_append, List.cons.injEq] at h <;>
    refine ⟨by omega, ?_⟩ <;> first | tauto | omega

theorem char_toNat_lt (c : Char) : c.toNat < 0x110000 := by
  have h := c.valid
  rcases h with h | h
  · exact Nat.lt_trans h (by norm_num)
  · exact h.2

theorem char_toNat_inj (c d : Char) (h : c.toNat = d.toNat) : c = d := by
  have hv : c.val = d.val := UInt32.toNat.inj h
  exact Char.eq_of_val_eq hv

/-- UTF-8 is a prefix-free code at the level of characters: if the encodings
of two characters begin two byte streams that are equal, the characters are
equal and the remainders agree. -/
theorem charBytes_pc (c d : Char) (r s : List Nat)
    (h : charBytes c ++ r = charBytes d ++ s) : c = d ∧ r = s := by
  have := utf8Enc_pc c.toNat d.toNat r s (char_toNat_lt c) (char_toNat_lt d) h
  exact ⟨char_toNat_inj c d this.1, this.2⟩

theorem charBytes_ne_nil (c : Char) : charBytes c ≠ [] := by
  unfold charBytes utf8Enc
  split_ifs <;> simp

/-- Injectivity of the byte encoding of character lists. -/
theorem charsBytes_inj :
    ∀ l1 l2 : List Char, charsBytes l1 = charsBytes l2 → l1 = l2 := by
  intro l1
  induction l1 with
  | nil =>
    intro l2 h
    cases l2 with
    | nil => rfl
    | cons d rest =>
      exfalso
      have : charBytes d ++ charsBytes rest = [] := by
        simpa [charsBytes] using h.symm
      exact charBytes_ne_nil d (List.append_eq_nil.mp this).1
  | cons c rest ih =>
    intro l2 h
    cases l2 with
    | nil =>
      exfalso
      have : charBytes c ++ charsBytes rest = [] := by
        simpa [charsBytes] using h
      exact charBytes_ne_nil c (List.append_eq_nil.mp this).1
    | cons d rest2 =>
      simp only [charsBytes] at h
      obtain ⟨hcd, htl⟩ := charBytes_pc c d _ _ h
      simp [hcd, ih rest2 htl]

theorem strBytes_inj (a b : String) (h : strBytes a = strBytes b) : a = b := by
  cases a with
  | mk da =>
    cases b with
    | mk db => exact congrArg String.mk (charsBytes_inj da db h)

/-- If neither byte sequence can be extended to the other, appending suffixes
does not change the comparison result. -/
theorem byteCompare_append_of_ne :
    ∀ u v : List Nat, (∀ r s : List Nat, u ++ r ≠ v ++ s) →
      ∀ a b : List Nat, byteCompare (u ++ a) (v ++ b) = byteCompare u v := by
  intro u
  induction u with
  | nil =>
    intro v hne a b
    exact absurd (by simp : ([] : List Nat) ++ v = v ++ []) (hne v [])
  | cons x u' ih =>
    intro v hne a b
    cases v with
    | nil =>
      exact absurd (by simp : (x :: u') ++ [] = [] ++ (x :: u')) (hne [] (x :: u'))
    | cons y v' =>
      by_cases hxy : x < y
      · simp [byteCompare, hxy]
      · by_cases hyx : y < x
        · simp [byteCompare, hxy, hyx]
        · have hxyeq : x = y := by omega
          have hne' : ∀ r s : List Nat, u' ++ r ≠ v' ++ s := by
            intro r s hc
            exact hne r s (by simp [hxyeq, hc])
          simp [byteCompare, hxy, hyx, ih v' hne' a b]

/-- For distinct characters the comparison of two byte streams headed by their
encodings is decided entirely by the two characters. -/
theorem byteCompare_charBytes (c d : Char) (hcd : c ≠ d) (a b : List Nat) :
    byteCompare (charBytes c ++ a) (charBytes d ++ b) =
      byteCompare (charBytes c) (charBytes d) := by
  refine byteCompare_append_of_ne (charBytes c) (charBytes d) ?_ a b
  intro r s hc
  exact hcd (charBytes_pc c d r s hc).1

/-- Model of the JavaScript `str.indexOf(pre) === 0` check: `l` begins with
`pre` (character-wise). -/
def listStartsWith : List Char → List Char → Bool
  | _, [] => true
  | [], _ :: _ => false
  | a :: as, b :: bs => a = b && listStartsWith as bs

theorem listStartsWith_iff :
    ∀ l pre : List Char, listStartsWith l pre = true ↔ ∃ t, l = pre ++ t := by
  intro l
  induction l with
  | nil =>
    intro pre
    cases pre with
    | nil => simp [listStartsWith]
    | cons b bs => simp [listStartsWith]
  | cons a as ih =>
    intro pre
    cases pre with
    | nil => simp [listStartsWith]
    | cons b bs =>
      simp only [listStartsWith, Bool.and_eq_true, decide_eq_true_eq, ih bs]
      constructor
      · rintro ⟨hab, t, ht⟩
        exact ⟨t, by simp [hab, ht]⟩
      · rintro ⟨t, ht⟩
        simp only [List.cons_append, List.cons.injEq] at ht
        exact ⟨ht.1, t, ht.2⟩

/-- String version of the `indexOf(...) === 0` check. -/
def strStartsWith (s pre : String) : Bool := listStartsWith s.data pre.data

/-- Strings sharing a prefix `P` bound an interval in UTF-8 binary order:
anything between two `P`-prefixed character lists is itself `P`-prefixed. -/
theorem prefix_between :
    ∀ P a b c : List Char,
      (∃ t, a = P ++ t) → (∃ t, c = P ++ t) →
      byteCompare (charsBytes a) (charsBytes b) ≤ 0 →
      byteCompare (charsBytes b) (charsBytes c) ≤ 0 →
      ∃ t, b = P ++ t := by
  intro P
  induction P with
  | nil => intro a b c _ _ _ _; exact ⟨b, rfl⟩
  | cons x P' ih =>
    rintro a b c ⟨ta, rfl⟩ ⟨tc, rfl⟩ h1 h2
    cases b with
    | nil =>
      exfalso
      rcases List.exists_cons_of_ne_nil (charBytes_ne_nil x) with ⟨z, zs, hz⟩
      simp only [List.cons_append, charsBytes] at h1
      rw [hz] at h1
      simp [byteCompare] at h1
    | cons y b' =>
      simp only [List.cons_append, charsBytes] at h1 h2
      by_cases hxy : x = y
      · subst hxy
        rw [byteCompare_append_left] at h1 h2
        obtain ⟨t, ht⟩ := ih (P' ++ ta) b' (P' ++ tc) ⟨ta, rfl⟩ ⟨tc, rfl⟩ h1 h2
        exact ⟨t, by simp [ht]⟩
      · exfalso
        rw [byteCompare_charBytes x y hxy] at h1
        rw [byteCompare_charBytes y x (Ne.symm hxy)] at h2
        rw [byteCompare_antisymm (charBytes y) (charBytes x)] at h2
        have h0 : byteCompare (charBytes x) (charBytes y) = 0 := by omega
        exact hxy ((charBytes_pc x y [] [] (by
          simpa using byteCompare_eq_zero _ _ h0)).1)

/-! ## The reconciler (src/sync.ts)

The merge loop of `sync` walks the sorted S3 listing and the sorted local
directory listing side by side and submits file actions into the queue.  The
host is the POSIX platform of the shipped Docker image, so the path separator
is `/` (`checkKeyOrPathIsDirectory` from `src/utils/keyAndPathUtils.ts` only
tests the trailing `/` off Windows). -/

/-- A local directory entry as produced by `getDirectoryEntries`
(`src/filesystemOps.ts`): relative path (directories carry a trailing
separator), and the `mtime`/`size` stats used by the comparison. -/
structure DirEntry where
  relativePath : String
  mtime : Int
  size : Int
deriving DecidableEq

/-- A remote object as produced by `getS3List` (`src/utils/s3Utils.ts`). -/
structure S3Obj where
  Key : String
  transformedKey : String
  lastModified : Int
  size : Int
deriving DecidableEq

/-- The file-system actions the reconciler submits into the queue
(`writeS3Object`, `unlinkFile`, `rmdirRecursive` in `src/filesystemOps.ts`). -/
inductive FileAction where
  | writeObject (Key transformedKey : String)
  | removeFile (relativePath : String)
  | removeDirRecursive (relativePath : String)
deriving DecidableEq

/-- `checkKeyOrPathIsDirectory` (`src/utils/keyAndPathUtils.ts`) on POSIX:
the last character is the separator `/` (`charAt` of an empty string is the
empty string, so the empty path is not a directory). -/
def checkKeyOrPathIsDirectory (key : String) : Bool :=
  match key.data.getLast? with
  | some c => decide (c = '/')
  | none => false

/-- `keyBelongsInCurrentDirectory` (`src/utils/keyAndPathUtils.ts`):
`s3Key.indexOf(curDir) === 0`. -/
def keyBelongsInCurrentDirectory (curDir s3Key : String) : Bool :=
  strStartsWith s3Key curDir

/-- The loop body of `getNextDirEntryAfterRemovedDir` (`src/sync.ts`): skip
local entries while their relative path starts with the removed directory. -/
def dropEntriesPrefixedBy (removedDir : String) : List DirEntry → List DirEntry
  | [] => []
  | e :: rest =>
    if strStartsWith e.relativePath removedDir = true then
      dropEntriesPrefixedBy removedDir rest
    else e :: rest

theorem dropEntriesPrefixedBy_length_le (removedDir : String) :
    ∀ ds : List DirEntry,
      (dropEntriesPrefixedBy removedDir ds).length ≤ ds.length := by
  intro ds
  induction ds with
  | nil => simp [dropEntriesPrefixedBy]
  | cons e rest ih =>
    by_cases h : strStartsWith e.relativePath removedDir = true
    · simp only [dropEntriesPrefixedBy, if_pos h]
      exact Nat.le_succ_of_le ih
    · simp [dropEntriesPrefixedBy, h]

/-- The merge loop of `sync` (`src/sync.ts`, the `while` starting at the
comment "Iterate through the S3 Objects and the local directory entries"),
as the list of actions it submits, in submission order.  The three branches
mirror the `switch` on `compareStringsUtf8BinaryOrder` and the two tails
mirror the `else if (dirEntry !== undefined)` / `else` arms. -/
def syncLoop (remove : Bool) : List DirEntry → List S3Obj → List FileAction
  | d :: ds, s :: ss =>
    if compareStringsUtf8BinaryOrder d.relativePath s.transformedKey = -1 then
      -- case 1: DirEntry < S3Key: local-only entry
      if remove then
        if checkKeyOrPathIsDirectory d.relativePath = true ∧
            keyBelongsInCurrentDirectory d.relativePath s.transformedKey = false then
          FileAction.removeDirRecursive d.relativePath ::
            syncLoop remove (dropEntriesPrefixedBy d.relativePath ds) (s :: ss)
        else if checkKeyOrPathIsDirectory d.relativePath = false then
          FileAction.removeFile d.relativePath :: syncLoop remove ds (s :: ss)
        else
          syncLoop remove ds (s :: ss)
      else
        syncLoop remove ds (s :: ss)
    else if compareStringsUtf8BinaryOrder d.relativePath s.transformedKey = 0 then
      -- case 2: DirEntry = S3Key: update if outdated, then advance both
      (if checkKeyOrPathIsDirectory d.relativePath = false ∧
          (d.mtime < s.lastModified ∨ s.size ≠ d.size) then
        [FileAction.writeObject s.Key s.transformedKey]
      else []) ++ syncLoop remove ds ss
    else
      -- case 3: DirEntry > S3Key: remote-only entry, download it
      FileAction.writeObject s.Key s.transformedKey ::
        syncLoop remove (d :: ds) ss
  | d :: ds, [] =>
    -- dir entries left after all S3 keys are exhausted
    if remove then
      if checkKeyOrPathIsDirectory d.relativePath = true then
        FileAction.removeDirRecursive d.relativePath ::
          syncLoop remove (dropEntriesPrefixedBy d.relativePath ds) []
      else
        FileAction.removeFile d.relativePath :: syncLoop remove ds []
    else
      syncLoop remove ds []
  | [], s :: ss =>
    -- S3 keys left after all dir entries are exhausted
    FileAction.writeObject s.Key s.transformedKey :: syncLoop remove [] ss
  | [], [] => []
termination_by ds ss => ds.length + ss.length
decreasing_by
  all_goals simp only [List.length_cons]
  all_goals first
    | omega
    | (have h := dropEntriesPrefixedBy_length_le d.relativePath ds; omega)

theorem strStartsWith_refl (s : String) : strStartsWith s s = true := by
  unfold strStartsWith
  exact (listStartsWith_iff s.data s.data).mpr ⟨[], by simp⟩

/-- After a recursive directory removal, no surviving local entry is prefixed
by the removed directory, provided the local listing was sorted and lay at or
above the removed directory in UTF-8 binary order. -/
theorem dropEntries_no_surviving_prefixed (P : String) :
    ∀ ds : List DirEntry,
      List.Pairwise (fun a b : DirEntry =>
        compareStringsUtf8BinaryOrder a.relativePath b.relativePath ≤ 0) ds →
      (∀ e ∈ ds, compareStringsUtf8BinaryOrder P e.relativePath ≤ 0) →
      ∀ e ∈ dropEntriesPrefixedBy P ds, strStartsWith e.relativePath P = false := by
  intro ds
  induction ds with
  | nil => intro _ _ e he; simp [dropEntriesPrefixedBy] at he
  | cons e rest ih =>
    intro hsorted hlow f hf
    rw [List.pairwise_cons] at hsorted
    by_cases hp : strStartsWith e.relativePath P = true
    · rw [dropEntriesPrefixedBy, if_pos hp] at hf
      exact ih hsorted.2 (fun g hg => hlow g (List.mem_cons_of_mem e hg)) f hf
    · rw [dropEntriesPrefixedBy, if_neg hp] at hf
      rcases List.mem_cons.mp hf with rfl | hfr
      · exact Bool.eq_false_iff.mpr hp
      · by_contra hpf
        have hpf' : strStartsWith f.relativePath P = true := by
          revert hpf; cases hx : strStartsWith f.relativePath P <;> simp
        obtain ⟨t, ht⟩ := (listStartsWith_iff f.relativePath.data P.data).mp hpf'
        have hbetween :=
          prefix_between P.data P.data e.relativePath.data f.relativePath.data
            ⟨[], by simp⟩ ⟨t, ht⟩
            (hlow e (List.mem_cons_self e rest))
            (hsorted.1 f hfr)
        exact hp ((listStartsWith_iff e.relativePath.data P.data).mpr hbetween)

/-- C1: in a reconciliation run, when the current local entry's relative path
equals the current remote object's transformed key: if the local entry is a
directory, no action is submitted and both cursors advance; otherwise a
WriteObject action is submitted if and only if the remote object's
last-modified instant is strictly greater than the local entry's mtime or the
remote size differs from the local size, and both cursors advance. -/
theorem sync_equal_key_case (remove : Bool) (d : DirEntry) (ds : List DirEntry)
    (s : S3Obj) (ss : List S3Obj)
    (heq : compareStringsUtf8BinaryOrder d.relativePath s.transformedKey = 0) :
    (checkKeyOrPathIsDirectory d.relativePath = true →
       syncLoop remove (d :: ds) (s :: ss) = syncLoop remove ds ss) ∧
    (checkKeyOrPathIsDirectory d.relativePath = false →
       ((d.mtime < s.lastModified ∨ s.size ≠ d.size) →
          syncLoop remove (d :: ds) (s :: ss) =
            FileAction.writeObject s.Key s.transformedKey :: syncLoop remove ds ss) ∧
       (¬ (d.mtime < s.lastModified ∨ s.size ≠ d.size) →
          syncLoop remove (d :: ds) (s :: ss) = syncLoop remove ds ss)) := by
  refine ⟨?_, ?_⟩
  · intro hdir
    simp [syncLoop, heq, hdir]
  · intro hdir
    refine ⟨?_, ?_⟩
    · intro hcond
      simp [syncLoop, heq, hdir, hcond]
    · intro hcond
      simp [syncLoop, heq, hdir, hcond]

/-- Witness for C1 (`sync_equal_key_case`) at a concrete input: one local
file, one remote object with the same transformed key, newer last-modified. -/
theorem sync_equal_key_case_witness :
    syncLoop true [⟨"a.txt", 5, 3⟩] [⟨"a.txt", "a.txt", 9, 3⟩] =
      FileAction.writeObject "a.txt" "a.txt" :: syncLoop true [] [] :=
  ((sync_equal_key_case true ⟨"a.txt", 5, 3⟩ [] ⟨"a.txt", "a.txt", 9, 3⟩ []
    (by decide)).2 (by decide)).1 (by decide)

/-- C2: in a reconciliation run, when the current local entry's path is
strictly less than the current remote object's transformed key under the
UTF-8 byte comparator: with remove=false the local cursor advances with no
action; with remove=true, if the local entry is a directory and the
transformed key does not start with the directory's path, a
RemoveDirRecursive action is submitted and every subsequent local entry whose
path is prefixed by that directory's path is skipped; if the local entry is a
directory containing the key, only the local cursor advances; otherwise a
RemoveFile action is submitted and the local cursor advances.
(The local listing is sorted, as `getDirectoryEntries` guarantees.) -/
theorem sync_local_only_case (d : DirEntry) (ds : List DirEntry)
    (s : S3Obj) (ss : List S3Obj)
    (hlt : compareStringsUtf8BinaryOrder d.relativePath s.transformedKey = -1)
    (hsorted : List.Pairwise (fun a b : DirEntry =>
      compareStringsUtf8BinaryOrder a.relativePath b.relativePath ≤ 0) (d :: ds)) :
    (syncLoop false (d :: ds) (s :: ss) = syncLoop false ds (s :: ss)) ∧
    (checkKeyOrPathIsDirectory d.relativePath = true →
       keyBelongsInCurrentDirectory d.relativePath s.transformedKey = false →
       syncLoop true (d :: ds) (s :: ss) =
         FileAction.removeDirRecursive d.relativePath ::
           syncLoop true (dropEntriesPrefixedBy d.relativePath ds) (s :: ss) ∧
       ∀ e ∈ dropEntriesPrefixedBy d.relativePath ds,
         strStartsWith e.relativePath d.relativePath = false) ∧
    (checkKeyOrPathIsDirectory d.relativePath = true →
       keyBelongsInCurrentDirectory d.relativePath s.transformedKey = true →
       syncLoop true (d :: ds) (s :: ss) = syncLoop true ds (s :: ss)) ∧
    (checkKeyOrPathIsDirectory d.relativePath = false →
       syncLoop true (d :: ds) (s :: ss) =
         FileAction.removeFile d.relativePath :: syncLoop true ds (s :: ss)) := by
  rw [List.pairwise_cons] at hsorted
  refine ⟨?_, ?_, ?_, ?_⟩
  · simp [syncLoop, hlt]
  · intro hdir hbel
    constructor
    · simp [syncLoop, hlt, hdir, hbel]
    · exact dropEntries_no_surviving_prefixed d.relativePath ds hsorted.2 hsorted.1
  · intro hdir hbel
    simp [syncLoop, hlt, hdir, hbel]
  · intro hdir
    simp [syncLoop, hlt, hdir]

/-- Witness for C2 (`sync_local_only_case`) at a concrete input: a local-only
directory "b/" (with one nested entry) before the remote key "c.txt". -/
theorem sync_local_only_case_witness :
    syncLoop true [⟨"b/", 0, 0⟩, ⟨"b/x", 0, 0⟩, ⟨"d", 0, 0⟩]
        [⟨"c.txt", "c.txt", 0, 0⟩] =
      FileAction.removeDirRecursive "b/" ::
        syncLoop true (dropEntriesPrefixedBy "b/" [⟨"b/x", 0, 0⟩, ⟨"d", 0, 0⟩])
          [⟨"c.txt", "c.txt", 0, 0⟩] ∧
    ∀ e ∈ dropEntriesPrefixedBy "b/" [⟨"b/x", 0, 0⟩, ⟨"d", 0, 0⟩],
      strStartsWith e.relativePath "b/" = false :=
  (sync_local_only_case ⟨"b/", 0, 0⟩ [⟨"b/x", 0, 0⟩, ⟨"d", 0, 0⟩]
    ⟨"c.txt", "c.txt", 0, 0⟩ [] (by decide) (by decide)).2.1 (by decide) (by decide)

/-! ## Key transformers (src/utils/transformers.ts) -/

/-- The loop of `removeRootDirCharsFromS3Key`: strip a leading `/` or `\`,
or a leading drive pattern `c ':' sep` where the drive letter test in the
source is `key.charAt(startPos) >= 'A' && key.charAt(startPos) <= 'Z'`
(uppercase only) and the separator test needs a third character (`charAt`
past the end yields the empty string and matches nothing), then repeat from
the new start position. -/
def removeRootDirChars : List Char → List Char
  | [] => []
  | c :: d :: e :: rest2 =>
    if c = '/' ∨ c = '\\' then removeRootDirChars (d :: e :: rest2)
    else if ('A' ≤ c ∧ c ≤ 'Z') ∧ d = ':' ∧ (e = '\\' ∨ e = '/') then
      removeRootDirChars rest2
    else c :: d :: e :: rest2
  | c :: rest =>
    -- fewer than three characters left: only a separator can be stripped
    if c = '/' ∨ c = '\\' then removeRootDirChars rest
    else c :: rest

/-- `removeRootDirCharsFromS3Key` from `src/utils/transformers.ts`. -/
def removeRootDirCharsFromS3Key (key : String) : String :=
  ⟨removeRootDirChars key.data⟩

/-- Does the character list begin with a prefix the source's loop strips:
a separator, or an uppercase drive pattern with a following separator? -/
def startsWithRootChars : List Char → Bool
  | c :: d :: e :: _ =>
    decide (c = '/' ∨ c = '\\') ||
      decide (('A' ≤ c ∧ c ≤ 'Z') ∧ d = ':' ∧ (e = '\\' ∨ e = '/'))
  | c :: _ => decide (c = '/' ∨ c = '\\')
  | [] => false

theorem removeRootDirChars_no_root :
    ∀ n : Nat, ∀ l : List Char, l.length ≤ n →
      startsWithRootChars (removeRootDirChars l) = false := by
  intro n
  induction n with
  | zero =>
    intro l hl
    have : l = [] := List.eq_nil_of_length_eq_zero (Nat.le_zero.mp hl)
    simp [this, removeRootDirChars, startsWithRootChars]
  | succ n ih =>
    intro l hl
    match l with
    | [] => simp [removeRootDirChars, startsWithRootChars]
    | c :: d :: e :: rest2 =>
      by_cases hsep : c = '/' ∨ c = '\\'
      · rw [removeRootDirChars, if_pos hsep]
        exact ih (d :: e :: rest2) (by simp at hl ⊢; omega)
      · by_cases hwin : ('A' ≤ c ∧ c ≤ 'Z') ∧ d = ':' ∧ (e = '\\' ∨ e = '/')
        · rw [removeRootDirChars, if_neg hsep, if_pos hwin]
          exact ih rest2 (by simp at hl ⊢; omega)
        · rw [removeRootDirChars, if_neg hsep, if_neg hwin]
          simp [startsWithRootChars, hsep, hwin]
    | [c] =>
      by_cases hsep : c = '/' ∨ c = '\\'
      · have heq : removeRootDirChars [c] = removeRootDirChars [] := by
          simp [removeRootDirChars, hsep]
        rw [heq]
        simp [removeRootDirChars, startsWithRootChars]
      · have heq : removeRootDirChars [c] = [c] := by
          simp [removeRootDirChars, hsep]
        rw [heq]
        simp [startsWithRootChars, hsep]
    | [c, d] =>
      by_cases hsep : c = '/' ∨ c = '\\'
      · have heq : removeRootDirChars [c, d] = removeRootDirChars [d] := by
          simp [removeRootDirChars, hsep]
        rw [heq]
        exact ih [d] (by simp at hl ⊢; omega)
      · have heq : removeRootDirChars [c, d] = [c, d] := by
          simp [removeRootDirChars, hsep]
        rw [heq]
        simp [startsWithRootChars, hsep]

theorem removeRootDirChars_fixed :
    ∀ l : List Char, startsWithRootChars l = false → removeRootDirChars l = l := by
  intro l hl
  match l with
  | [] => rfl
  | c :: d :: e :: rest2 =>
    simp only [startsWithRootChars, Bool.or_eq_false_iff, decide_eq_false_iff_not] at hl
    rw [removeRootDirChars, if_neg hl.1, if_neg hl.2]
  | [c] =>
    simp only [startsWithRootChars, decide_eq_false_iff_not] at hl
    simp [removeRootDirChars, hl]
  | [c, d] =>
    simp only [startsWithRootChars, decide_eq_false_iff_not] at hl
    simp [removeRootDirChars, hl]

/-- C8 counterexample: the claim says a lowercase drive prefix such as
`c:/x` is removed; in the source the drive-letter test is uppercase-only
(`>= 'A' && <= 'Z'`), so `c:/x` is returned unchanged. -/
theorem removeRootDirChars_lowercase_drive_kept :
    removeRootDirCharsFromS3Key "c:/x" = "c:/x" ∧
    removeRootDirCharsFromS3Key "c:/x" ≠ "x" := by
  constructor
  · rfl
  · decide

/-- C8 (amended): `removeRootDirCharsFromS3Key` repeatedly strips a leading
`/` or `\` separator or a leading uppercase-only Windows drive prefix
`[A-Z]:[/\]`, until the result starts with no such prefix; lowercase drive
prefixes are not stripped (a key not starting with any such prefix, e.g. one
with a lowercase drive letter, is returned unchanged). -/
theorem removeRootDirCharsFromS3Key_spec :
    (∀ key : String,
       startsWithRootChars (removeRootDirCharsFromS3Key key).data = false) ∧
    (∀ key : String, startsWithRootChars key.data = false →
       removeRootDirCharsFromS3Key key = key) ∧
    (∀ (d e : Char) (l : List Char),
       removeRootDirChars ('/' :: d :: e :: l) = removeRootDirChars (d :: e :: l)) ∧
    (∀ (d e : Char) (l : List Char),
       removeRootDirChars ('\\' :: d :: e :: l) = removeRootDirChars (d :: e :: l)) ∧
    (∀ (c e : Char) (l : List Char), 'A' ≤ c → c ≤ 'Z' → (e = '\\' ∨ e = '/') →
       removeRootDirChars (c :: ':' :: e :: l) = removeRootDirChars l) := by
  refine ⟨?_, ?_, ?_, ?_, ?_⟩
  · intro key
    exact removeRootDirChars_no_root key.data.length key.data (Nat.le_refl _)
  · intro key hk
    unfold removeRootDirCharsFromS3Key
    rw [removeRootDirChars_fixed key.data hk]
  · intro d e l
    rw [removeRootDirChars, if_pos (Or.inl rfl)]
  · intro d e l
    rw [removeRootDirChars, if_pos (Or.inr rfl)]
  · intro c e l hA hZ he
    have hsep : ¬ (c = '/' ∨ c = '\\') := by
      rintro (rfl | rfl) <;> revert hA hZ <;> decide
    rw [removeRootDirChars, if_neg hsep, if_pos ⟨⟨hA, hZ⟩, rfl, he⟩]

/-- Witness for C8 (`removeRootDirCharsFromS3Key_spec`): the stripping
equations at concrete inputs. -/
theorem removeRootDirCharsFromS3Key_spec_witness :
    removeRootDirCharsFromS3Key "x" = "x" ∧
    removeRootDirChars [ 'A', ':', '/', 'x'] = removeRootDirChars ['x'] := by
  constructor
  · exact removeRootDirCharsFromS3Key_spec.2.1 "x" (by decide)
  · exact removeRootDirCharsFromS3Key_spec.2.2.2.2 'A' '/' ['x']
      (by decide) (by decide) (Or.inr rfl)

/-! ## Recursive directory removal guards (src/filesystemOps.ts) -/

/-- Split a character list on the separator `/`. -/
def splitOnSlash : List Char → List Char → List (List Char)
  | [], cur => [cur.reverse]
  | c :: rest, cur =>
    if c = '/' then cur.reverse :: splitOnSlash rest []
    else splitOnSlash rest (c :: cur)

/-- Node path normalization over segments: empty and `.` segments are
dropped, `..` pops the previous segment (and is ignored at the root). -/
def normalizeSegs : List (List Char) → List (List Char) → List (List Char)
  | [], acc => acc.reverse
  | seg :: rest, acc =>
    if seg = [] ∨ seg = [ '.'] then normalizeSegs rest acc
    else if seg = [ '.', '.'] then normalizeSegs rest (acc.drop 1)
    else normalizeSegs rest (seg :: acc)

def joinSegs (segs : List (List Char)) : List Char :=
  segs.foldl (fun acc seg => acc ++ '/' :: seg) []

/-- POSIX `path.resolve(rootDir, p)` for an absolute `rootDir` (the program
requires the mirror root to be an absolute path): if `p` is absolute,
normalize `p`, otherwise normalize `rootDir + "/" + p`; the result keeps no
trailing separator and the empty result is `/`. -/
def posixResolve (rootDir p : String) : String :=
  let combined :=
    if strStartsWith p "/" = true then p.data else rootDir.data ++ '/' :: p.data
  let segs := normalizeSegs (splitOnSlash combined []) []
  if segs = [] then "/" else ⟨joinSegs segs⟩

/-- `charAt` as the source uses it: `none` past the end (JavaScript returns
the empty string there, which equals no one-character string). -/
def charAtOpt (s : String) (i : Nat) : Option Char :=
  match s.data.drop i with
  | c :: _ => some c
  | [] => none

/-- `ensurePathEndsWithOsSeparator` from `src/utils/utils.ts`.  The source
tests `str.charAt(str.length)` — one past the end — so the test never
succeeds and a separator is always appended (preserved as-is). -/
def ensurePathEndsWithOsSeparator (s : String) : String :=
  if charAtOpt s s.length = some '/' then s else s ++ "/"

/-- The `windowsRootRegex` test `^[A-Za-z]:\\$` from `src/filesystemOps.ts`. -/
def isWindowsRootPath (p : String) : Bool :=
  match p.data with
  | [c, d, e] =>
    (decide ('A' ≤ c ∧ c ≤ 'Z') || decide ('a' ≤ c ∧ c ≤ 'z')) &&
      decide (d = ':') && decide (e = '\\')
  | _ => false

/-- What a call to `rmdirRecursive` (`src/filesystemOps.ts`) does: nothing
(logged no-op), throw before submitting, or submit a removal task keyed by
the resolved path. -/
inductive RmdirOutcome where
  | noop
  | rootError
  | submitTask (p : String)
deriving DecidableEq

/-- `rmdirRecursive` from `src/filesystemOps.ts`: compare the relative path
against the root directory (each with a separator appended); if they differ,
resolve, reject `/` and Windows drive roots by throwing, and otherwise
submit the removal task. -/
def rmdirRecursiveOutcome (rootDir relativeDirPath : String) : RmdirOutcome :=
  if ensurePathEndsWithOsSeparator relativeDirPath ≠
      ensurePathEndsWithOsSeparator rootDir then
    let rmDirPath := posixResolve rootDir relativeDirPath
    if rmDirPath = "/" ∨ isWindowsRootPath rmDirPath = true then
      RmdirOutcome.rootError
    else RmdirOutcome.submitTask rmDirPath
  else RmdirOutcome.noop

/-- C9 counterexample: `rmdirRecursive` with `relativeDirPath = "."` submits
a removal task whose target is exactly the mirror root: the no-op guard
compares the relative path *string* with the root directory string, not the
resolved path, so `"."` slips through and resolves to the root. -/
theorem rmdirRecursive_dot_submits_mirror_root :
    rmdirRecursiveOutcome "/root/mir" "." =
      RmdirOutcome.submitTask "/root/mir" := by decide

/-- C9 (amended): `rmdirRecursive` never submits a removal task for `/` or
for a Windows drive root (it throws first), and it is a logged no-op exactly
when the relative path string equals the root directory string; however an
input that merely *resolves* to the mirror root (such as `"."`) is not
caught by the guard and is submitted. -/
theorem rmdirRecursive_guards (rootDir relativeDirPath : String) :
    (∀ p : String,
       rmdirRecursiveOutcome rootDir relativeDirPath = RmdirOutcome.submitTask p →
       p ≠ "/" ∧ isWindowsRootPath p = false ∧
         p = posixResolve rootDir relativeDirPath) ∧
    (relativeDirPath = rootDir →
       rmdirRecursiveOutcome rootDir relativeDirPath = RmdirOutcome.noop) := by
  constructor
  · intro p hp
    unfold rmdirRecursiveOutcome at hp
    by_cases hne : ensurePathEndsWithOsSeparator relativeDirPath ≠
        ensurePathEndsWithOsSeparator rootDir
    · rw [if_pos hne] at hp
      by_cases hroot : posixResolve rootDir relativeDirPath = "/" ∨
          isWindowsRootPath (posixResolve rootDir relativeDirPath) = true
      · rw [if_pos hroot] at hp
        simp at hp
      · rw [if_neg hroot] at hp
        simp only [RmdirOutcome.submitTask.injEq] at hp
        push_neg at hroot
        subst hp
        exact ⟨hroot.1, Bool.eq_false_iff.mpr hroot.2, rfl⟩
    · rw [if_neg hne] at hp
      simp at hp
  · intro h
    subst h
    unfold rmdirRecursiveOutcome
    rw [if_neg (by simp)]

/-- Witness for C9 (`rmdirRecursive_guards`) at concrete inputs. -/
theorem rmdirRecursive_guards_witness :
    (("/r/d" : String) ≠ "/" ∧ isWindowsRootPath "/r/d" = false ∧
       ("/r/d" : String) = posixResolve "/r" "d") ∧
    rmdirRecursiveOutcome "/r" "/r" = RmdirOutcome.noop :=
  ⟨(rmdirRecursive_guards "/r" "d").1 "/r/d" (by decide),
   (rmdirRecursive_guards "/r" "/r").2 rfl⟩

/-! ## Association tables

A JavaScript object used as a keyed map (`allBucketKeys` in
`src/utils/s3Utils.ts`, `runningTasks` in `src/AsyncOpQueue.ts`) is modelled
by an association list with pairwise-distinct keys; assignment replaces in
place (JavaScript preserves the insertion position of an overwritten key)
or appends. -/

def tblGet {α : Type} (k : String) : List (String × α) → Option α
  | [] => none
  | (k2, v) :: rest => if k2 = k then some v else tblGet k rest

def tblSet {α : Type} (k : String) (v : α) : List (String × α) → List (String × α)
  | [] => [(k, v)]
  | (k2, v2) :: rest =>
    if k2 = k then (k, v) :: rest else (k2, v2) :: tblSet k v rest

def tblDel {α : Type} (k : String) : List (String × α) → List (String × α)
  | [] => []
  | (k2, v2) :: rest => if k2 = k then rest else (k2, v2) :: tblDel k rest

theorem tblGet_tblSet_self {α : Type} (k : String) (v : α) :
    ∀ t : List (String × α), tblGet k (tblSet k v t) = some v := by
  intro t
  induction t with
  | nil => simp [tblGet, tblSet]
  | cons p rest ih =>
    by_cases h : p.1 = k
    · simp [tblSet, tblGet, h]
    · simp only [tblSet, tblGet]
      rw [if_neg h, tblGet, if_neg h]
      exact ih

theorem tblGet_tblSet_ne {α : Type} (k k2 : String) (v : α) (hne : k2 ≠ k) :
    ∀ t : List (String × α), tblGet k (tblSet k2 v t) = tblGet k t := by
  intro t
  induction t with
  | nil => simp [tblGet, tblSet, hne]
  | cons p rest ih =>
    by_cases h : p.1 = k2
    · simp only [tblSet]
      rw [if_pos h, tblGet, tblGet, if_neg hne, if_neg (h ▸ hne)]
    · simp only [tblSet]
      rw [if_neg h, tblGet, tblGet]
      by_cases h2 : p.1 = k
      · rw [if_pos h2, if_pos h2]
      · rw [if_neg h2, if_neg h2]
        exact ih

theorem tblGet_tblDel_ne {α : Type} (k k2 : String) (hne : k2 ≠ k) :
    ∀ t : List (String × α), tblGet k (tblDel k2 t) = tblGet k t := by
  intro t
  induction t with
  | nil => simp [tblGet, tblDel]
  | cons p rest ih =>
    by_cases h : p.1 = k2
    · simp only [tblDel]
      rw [if_pos h, tblGet, if_neg (h ▸ hne)]
    · simp only [tblDel]
      rw [if_neg h, tblGet, tblGet]
      by_cases h2 : p.1 = k
      · rw [if_pos h2, if_pos h2]
      · rw [if_neg h2, if_neg h2]
        exact ih

theorem tblGet_none_iff {α : Type} (k : String) :
    ∀ t : List (String × α), tblGet k t = none ↔ k ∉ t.map Prod.fst := by
  intro t
  induction t with
  | nil => simp [tblGet]
  | cons p rest ih =>
    by_cases h : p.1 = k
    · simp [tblGet, h]
    · simp [tblGet, h, ih, Ne.symm h]

theorem tblSet_map_fst_present {α : Type} (k : String) (v v0 : α) :
    ∀ t : List (String × α), tblGet k t = some v0 →
      (tblSet k v t).map Prod.fst = t.map Prod.fst := by
  intro t
  induction t with
  | nil => simp [tblGet]
  | cons p rest ih =>
    intro hget
    by_cases h : p.1 = k
    · simp [tblSet, h]
    · rw [tblGet, if_neg h] at hget
      simp [tblSet, h, ih hget]

theorem tblSet_map_fst_absent {α : Type} (k : String) (v : α) :
    ∀ t : List (String × α), tblGet k t = none →
      (tblSet k v t).map Prod.fst = t.map Prod.fst ++ [k] := by
  intro t
  induction t with
  | nil => simp [tblGet, tblSet]
  | cons p rest ih =>
    intro hget
    by_cases h : p.1 = k
    · rw [tblGet, if_pos h] at hget
      cases hget
    · rw [tblGet, if_neg h] at hget
      simp [tblSet, h, ih hget]

theorem tblSet_length_present {α : Type} (k : String) (v v0 : α)
    (t : List (String × α)) (h : tblGet k t = some v0) :
    (tblSet k v t).length = t.length := by
  have h1 := tblSet_map_fst_present k v v0 t h
  have h2 := congrArg List.length h1
  simpa using h2

theorem tblSet_length_absent {α : Type} (k : String) (v : α)
    (t : List (String × α)) (h : tblGet k t = none) :
    (tblSet k v t).length = t.length + 1 := by
  have h1 := tblSet_map_fst_absent k v t h
  have h2 := congrArg List.length h1
  simpa using h2

theorem tblSet_nodup {α : Type} (k : String) (v : α)
    (t : List (String × α)) (hnd : (t.map Prod.fst).Nodup) :
    ((tblSet k v t).map Prod.fst).Nodup := by
  cases hget : tblGet k t with
  | some v0 => rw [tblSet_map_fst_present k v v0 t hget]; exact hnd
  | none =>
    rw [tblSet_map_fst_absent k v t hget]
    have hk : k ∉ t.map Prod.fst := (tblGet_none_iff k t).mp hget
    simp [List.nodup_append, hnd, hk]

theorem tblDel_sublist {α : Type} (k : String) :
    ∀ t : List (String × α), (tblDel k t).Sublist t := by
  intro t
  induction t with
  | nil => simp [tblDel]
  | cons p rest ih =>
    by_cases h : p.1 = k
    · rw [tblDel, if_pos h]
      exact List.sublist_cons_self p rest
    · rw [tblDel, if_neg h]
      exact List.Sublist.cons₂ p ih

theorem tblDel_length {α : Type} (k : String) (v0 : α) :
    ∀ t : List (String × α), tblGet k t = some v0 →
      (tblDel k t).length + 1 = t.length := by
  intro t
  induction t with
  | nil => simp [tblGet]
  | cons p rest ih =>
    intro hget
    by_cases h : p.1 = k
    · rw [tblDel, if_pos h]
      simp
    · rw [tblGet, if_neg h] at hget
      rw [tblDel, if_neg h]
      simp only [List.length_cons]
      rw [ih hget]

theorem mem_tblSet {α : Type} (k : String) (v : α) :
    ∀ t : List (String × α), ∀ p ∈ tblSet k v t, p = (k, v) ∨ p ∈ t := by
  intro t
  induction t with
  | nil => simp [tblSet]
  | cons q rest ih =>
    intro p hp
    by_cases h : q.1 = k
    · rw [tblSet, if_pos h] at hp
      rcases List.mem_cons.mp hp with rfl | hin
      · exact Or.inl rfl
      · exact Or.inr (List.mem_cons_of_mem q hin)
    · rw [tblSet, if_neg h] at hp
      rcases List.mem_cons.mp hp with rfl | hin
      · exact Or.inr (List.mem_cons_self q rest)
      · rcases ih p hin with h1 | h1
        · exact Or.inl h1
        · exact Or.inr (List.mem_cons_of_mem q h1)

/-! ## Remote listing (src/utils/s3Utils.ts, getS3List) -/

/-- An object of the raw listing pages (`Contents` of `ListObjectsV2`). -/
structure InObj where
  Key : String
deriving DecidableEq

/-- An element of the list `getS3List` returns: the original key plus the
transformed key set by `setTransformedKey` (`src/s3ObjectOps.ts`). -/
structure S3ListObj where
  Key : String
  transformedKey : String
deriving DecidableEq

/-- `applyTransformersToKey` (`src/s3ObjectOps.ts`): apply the transformers
left to right. -/
def applyTransformersToKey (key : String) (ts : List (String → String)) : String :=
  ts.foldl (fun k t => t k) key

/-- JavaScript `key.endsWith(suf)`. -/
def strEndsWith (s suf : String) : Bool :=
  listStartsWith s.data.reverse suf.data.reverse

/-- The suffix filter of `getS3List`: when a suffix option is provided, keys
that do not end with it are skipped. -/
def s3SuffixKeep (suffixFilter : Option String) (k : String) : Bool :=
  match suffixFilter with
  | none => true
  | some suf => strEndsWith k suf

/-- The page loop body of `getS3List`: filter by suffix, drop objects whose
key is empty (`setTransformedKey` throws and the catch ignores the key),
drop transformed keys that reduce to the empty string or `/`, and otherwise
store under the transformed key, overwriting colliding entries (logged). -/
def s3Accumulate (suffixFilter : Option String) (ts : List (String → String)) :
    List InObj → List (String × S3ListObj) → List (String × S3ListObj)
  | [], tbl => tbl
  | o :: rest, tbl =>
    if s3SuffixKeep suffixFilter o.Key = false then
      s3Accumulate suffixFilter ts rest tbl
    else if o.Key = "" then
      s3Accumulate suffixFilter ts rest tbl
    else
      let tKey := applyTransformersToKey o.Key ts
      if tKey = "" ∨ tKey = "/" then s3Accumulate suffixFilter ts rest tbl
      else s3Accumulate suffixFilter ts rest (tblSet tKey ⟨o.Key, tKey⟩ tbl)

/-- The sort comparator at the end of `getS3List`:
`(a, b) => compareStringsUtf8BinaryOrder(a.Key, b.Key)` — the **original**
key, not the transformed key. -/
def s3KeyLe (a b : S3ListObj) : Prop :=
  byteCompare (strBytes a.Key) (strBytes b.Key) ≤ 0

instance : DecidableRel s3KeyLe := fun a b =>
  inferInstanceAs (Decidable (byteCompare (strBytes a.Key) (strBytes b.Key) ≤ 0))

instance : IsTotal S3ListObj s3KeyLe := by
  constructor
  intro a b
  unfold s3KeyLe
  have hanti := byteCompare_antisymm (strBytes b.Key) (strBytes a.Key)
  rcases byteCompare_range (strBytes a.Key) (strBytes b.Key) with h | h | h
  · left; omega
  · left; omega
  · right; omega

instance : IsTrans S3ListObj s3KeyLe := by
  constructor
  intro a b c
  exact byteCompare_trans_nonpos _ _ _

/-- `getS3List` from `src/utils/s3Utils.ts`: accumulate all pages into the
keyed map, take its values in insertion order, and sort them by the original
key under the UTF-8 binary comparator.  (The concrete sorting algorithm is
irrelevant: the original keys in the map are pairwise distinct, so the
sorted list is unique.) -/
def getS3List (listing : List InObj) (suffixFilter : Option String)
    (ts : List (String → String)) : List S3ListObj :=
  List.insertionSort s3KeyLe
    ((s3Accumulate suffixFilter ts listing []).map Prod.snd)

/-- Invariant of the accumulation table: the table keys are pairwise
distinct, every stored value carries its table key as `transformedKey`, and
that key is the transform of its original key. -/
def S3TblInv (ts : List (String → String)) (tbl : List (String × S3ListObj)) : Prop :=
  (tbl.map Prod.fst).Nodup ∧
  ∀ kv ∈ tbl, kv.2.transformedKey = kv.1 ∧
    applyTransformersToKey kv.2.Key ts = kv.1

theorem s3Accumulate_inv (suffixFilter : Option String)
    (ts : List (String → String)) :
    ∀ (listing : List InObj) (tbl : List (String × S3ListObj)),
      S3TblInv ts tbl → S3TblInv ts (s3Accumulate suffixFilter ts listing tbl) := by
  intro listing
  induction listing with
  | nil => intro tbl h; exact h
  | cons o rest ih =>
    intro tbl h
    rw [s3Accumulate]
    by_cases h1 : s3SuffixKeep suffixFilter o.Key = false
    · rw [if_pos h1]; exact ih tbl h
    · rw [if_neg h1]
      by_cases h2 : o.Key = ""
      · rw [if_pos h2]; exact ih tbl h
      · rw [if_neg h2]
        by_cases h3 : applyTransformersToKey o.Key ts = "" ∨
            applyTransformersToKey o.Key ts = "/"
        · simp only [if_pos h3]; exact ih tbl h
        · simp only [if_neg h3]
          apply ih
          constructor
          · exact tblSet_nodup _ _ tbl h.1
          · intro kv hkv
            rcases mem_tblSet _ _ tbl kv hkv with rfl | hin
            · exact ⟨rfl, rfl⟩
            · exact h.2 kv hin

/-- In a table satisfying the invariant, the stored values have pairwise
distinct original keys and pairwise distinct transformed keys. -/
theorem s3Tbl_values_distinct (ts : List (String → String))
    (tbl : List (String × S3ListObj)) (h : S3TblInv ts tbl) :
    (tbl.map Prod.snd).Pairwise (fun a b : S3ListObj => a.Key ≠ b.Key) ∧
    (tbl.map Prod.snd).Pairwise
      (fun a b : S3ListObj => a.transformedKey ≠ b.transformedKey) := by
  have hfst : tbl.Pairwise (fun p q : String × S3ListObj => p.1 ≠ q.1) :=
    List.pairwise_map.mp h.1
  constructor
  · rw [List.pairwise_map]
    refine hfst.imp_of_mem ?_
    intro p q hp hq hne hkey
    have hp2 := h.2 p hp
    have hq2 := h.2 q hq
    exact hne (by rw [← hp2.2, ← hq2.2, hkey])
  · rw [List.pairwise_map]
    refine hfst.imp_of_mem ?_
    intro p q hp hq hne htk
    have hp2 := h.2 p hp
    have hq2 := h.2 q hq
    exact hne (by rw [← hp2.1, ← hq2.1, htk])

/-- C3 (amended): the list returned by `getS3List` is strictly increasing in
the **original** keys under the UTF-8 byte comparator, and its transformed
keys are pairwise distinct (collisions are deduplicated, last write wins);
it is **not** in general increasing in the transformed keys, because the
final sort compares original keys. -/
theorem getS3List_strictly_increasing_original_keys
    (listing : List InObj) (suffixFilter : Option String)
    (ts : List (String → String)) :
    (getS3List listing suffixFilter ts).Pairwise
      (fun a b : S3ListObj => byteCompare (strBytes a.Key) (strBytes b.Key) = -1) ∧
    (getS3List listing suffixFilter ts).Pairwise
      (fun a b : S3ListObj => a.transformedKey ≠ b.transformedKey) := by
  have hinv : S3TblInv ts (s3Accumulate suffixFilter ts listing []) :=
    s3Accumulate_inv suffixFilter ts listing [] (by constructor <;> simp)
  have hdist := s3Tbl_values_distinct ts _ hinv
  have hperm : List.Perm (getS3List listing suffixFilter ts)
      ((s3Accumulate suffixFilter ts listing []).map Prod.snd) :=
    List.perm_insertionSort s3KeyLe _
  have hsorted : (getS3List listing suffixFilter ts).Pairwise s3KeyLe :=
    List.sorted_insertionSort s3KeyLe _
  have hkeyne : (getS3List listing suffixFilter ts).Pairwise
      (fun a b : S3ListObj => a.Key ≠ b.Key) :=
    (List.Perm.pairwise_iff (fun hxy h => hxy h.symm) hperm).mpr hdist.1
  have htkne : (getS3List listing suffixFilter ts).Pairwise
      (fun a b : S3ListObj => a.transformedKey ≠ b.transformedKey) :=
    (List.Perm.pairwise_iff (fun hxy h => hxy h.symm) hperm).mpr hdist.2
  refine ⟨?_, htkne⟩
  refine (hsorted.and hkeyne).imp ?_
  intro a b hab
  rcases byteCompare_range (strBytes a.Key) (strBytes b.Key) with h | h | h
  · exact h
  · exact absurd (strBytes_inj _ _ (byteCompare_eq_zero _ _ h)) hab.2
  · exfalso
    have h1 := hab.1
    unfold s3KeyLe at h1
    omega

/-- C3 counterexample: with the default root-prefix-stripping transformer,
the listing with keys `/b` then `a` yields a list sorted by original key
(`/b` before `a`) whose transformed keys `b`, `a` are **decreasing** — so
the claim that `getS3List` returns strictly increasing transformed keys
fails. -/
theorem getS3List_transformed_keys_not_increasing :
    (getS3List [⟨"/b"⟩, ⟨"a"⟩] none [removeRootDirCharsFromS3Key]).map
        S3ListObj.transformedKey = ["b", "a"] ∧
    byteCompare (strBytes "b") (strBytes "a") = 1 := by
  constructor
  · rfl
  · decide

/-! ## The async operation queue (src/AsyncOpQueue.ts)

The queue's observable behaviour is modelled as a state machine driven by
events: `submit` (a call to `submit`/`submitPromiseTask`), `runPass` (one
execution of the `setImmediate` body of `run()`), `complete` (a task's
`onComplete` callback firing), `reap` (one execution of the reaper's
`setTimeout` body), `stop` and the shutdown-timeout upgrade.  The source's
dispatch loop calls `Date.now()` afresh in every iteration of its `while`,
so a `runPass` event carries the clock sample of its first iteration plus
the list of samples of the subsequent iterations (the last sample persists
when the list is exhausted; any finite monotone sample sequence is
representable).  The reaper, by contrast, takes a single `currentTime` for
its whole sweep, as in the source.  The ghost fields `executed` (in
invocation order, with the submission sequence number and the run id handed
to each task) and `submitted` record the observable history. -/

/-- An entry of the `runningTasks` table. -/
structure RunningTask where
  expiration : Option Nat
  id : Nat
deriving DecidableEq

/-- A queue node (`QueueItem`), with a ghost submission sequence number. -/
structure QItem where
  key : String
  seq : Nat
  runTimeout : Option Nat
deriving DecidableEq

/-- Ghost record of one task invocation by the dispatch loop. -/
structure ExecRec where
  key : String
  seq : Nat
  id : Nat
deriving DecidableEq

/-- Result of one dispatch pass over the queue. -/
structure PassResult where
  execs : List ExecRec
  remaining : List QItem
  running : List (String × RunningTask)
  runCount : Nat
  runId : Nat

/-- The run condition of the dispatch loop: no running task for the key, or
its expiration is set and has passed (`expiration - Date.now() <= 0`). -/
def taskCanRun (now : Nat) (rt : Option RunningTask) : Bool :=
  match rt with
  | none => true
  | some r =>
    match r.expiration with
    | none => false
    | some e => decide (e ≤ now)

/-- The `while` loop of `run()` in `src/AsyncOpQueue.ts`.  The iteration at
hand observes the clock sample `now`; the next iteration observes the head
of `clocks` (or `now` again once `clocks` is exhausted) — mirroring the
fresh `Date.now()` call of each source iteration.  Within one iteration the
expiration check and the base of the stored expiration share the sample
(the two adjacent `Date.now()` calls of the source).  A runnable task is
invoked (recorded in `execs`) and its key is stored in `runningTasks` with
a fresh run id and the expiration `runTimeout + Date.now()` (none when the
timeout is undefined); `runCount` grows only when the key had no entry.  A
non-runnable task is kept, in order, for the next pass (the source's
`previousUnrunTask` relinking); when `runCount` reaches `maxConcurrency` or
an immediate shutdown is flagged the rest of the queue is left untouched. -/
def runLoop (max : Nat) (sdi : Bool) :
    Nat → List Nat → List QItem → List (String × RunningTask) → Nat → Nat →
      PassResult
  | _, _, [], running, rc, rid => ⟨[], [], running, rc, rid⟩
  | now, clocks, t :: rest, running, rc, rid =>
    if rc < max ∧ sdi = false then
      if taskCanRun now (tblGet t.key running) then
        let newExp : Option Nat :=
          match t.runTimeout with
          | none => none
          | some rt => some (rt + now)
        let rc1 :=
          match tblGet t.key running with
          | none => rc + 1
          | some _ => rc
        let res := runLoop max sdi (clocks.headD now) clocks.tail rest
          (tblSet t.key ⟨newExp, rid⟩ running) rc1 (rid + 1)
        ⟨⟨t.key, t.seq, rid⟩ :: res.execs, res.remaining,
          res.running, res.runCount, res.runId⟩
      else
        let res := runLoop max sdi (clocks.headD now) clocks.tail rest
          running rc rid
        ⟨res.execs, t :: res.remaining, res.running, res.runCount, res.runId⟩
    else ⟨[], t :: rest, running, rc, rid⟩

/-- The queue state (`AsyncOpQueue` fields), plus the ghost history. -/
structure QState where
  queue : List QItem
  running : List (String × RunningTask)
  runCount : Nat
  runId : Nat
  shutdown : Bool
  shutdownImmediately : Bool
  executed : List ExecRec
  submitted : List QItem
  submitSeq : Nat
deriving DecidableEq

def initQState : QState := ⟨[], [], 0, 0, false, false, [], [], 0⟩

/-- `removeRunningTask`: remove the key only when the stored run id matches
(guards a timed-out task's late `onComplete` against evicting its
successor). -/
def removeRunningTask (key : String) (id : Nat) (s : QState) : QState :=
  match tblGet key s.running with
  | some rt =>
    if rt.id = id then
      { s with running := tblDel key s.running, runCount := s.runCount - 1 }
    else s
  | none => s

/-- The reaper's eviction test: `expiration !== undefined` and
`expiration - currentTime <= 0`. -/
def taskExpiredAt (now : Nat) (rt : RunningTask) : Bool :=
  match rt.expiration with
  | none => false
  | some e => decide (e ≤ now)

inductive QEvent where
  | submit (key : String) (runTimeout : Option Nat)
  | runPass (now : Nat) (clocks : List Nat)
  | complete (key : String) (id : Nat)
  | reap (now : Nat)
  | stop (immediately : Bool)
  | shutdownUpgrade
deriving DecidableEq

def applyEvent (max : Nat) (s : QState) (e : QEvent) : QState :=
  match e with
  | QEvent.submit key rt =>
    -- submit: append to the tail of the linked list unless shut down
    if s.shutdown then s
    else
      { s with
        queue := s.queue ++ [⟨key, s.submitSeq, rt⟩],
        submitted := s.submitted ++ [⟨key, s.submitSeq, rt⟩],
        submitSeq := s.submitSeq + 1 }
  | QEvent.runPass now clocks =>
    let r := runLoop max s.shutdownImmediately now clocks s.queue s.running
      s.runCount s.runId
    { s with
      queue := r.remaining, running := r.running, runCount := r.runCount,
      runId := r.runId, executed := s.executed ++ r.execs }
  | QEvent.complete key id => removeRunningTask key id s
  | QEvent.reap now =>
    -- sweep the running-task table, evicting entries whose expiration passed
    ((s.running.filter (fun kv => taskExpiredAt now kv.2)).map
        (fun kv => (kv.1, kv.2.id))).foldl
      (fun st p => removeRunningTask p.1 p.2 st) s
  | QEvent.stop imm =>
    if s.shutdown then s
    else { s with shutdown := true, shutdownImmediately := imm }
  | QEvent.shutdownUpgrade => { s with shutdownImmediately := true }

def applyEvents (max : Nat) (evs : List QEvent) (s : QState) : QState :=
  evs.foldl (applyEvent max) s

/-- Every clock the tail of a pass can observe was already observable by
the pass. -/
theorem mem_clock_step (now : Nat) (clocks : List Nat) :
    ∀ c : Nat, c ∈ (clocks.headD now) :: clocks.tail → c ∈ now :: clocks := by
  intro c hc
  cases clocks with
  | nil => simpa using hc
  | cons x xs =>
    simp only [List.headD_cons, List.tail_cons] at hc
    exact List.mem_cons_of_mem now hc

theorem runLoop_tbl (max : Nat) (sdi : Bool) :
    ∀ (q : List QItem) (now : Nat) (clocks : List Nat)
      (running : List (String × RunningTask)) (rc rid : Nat),
      (running.map Prod.fst).Nodup → running.length = rc → rc ≤ max →
      (((runLoop max sdi now clocks q running rc rid).running.map
          Prod.fst).Nodup ∧
       (runLoop max sdi now clocks q running rc rid).running.length =
         (runLoop max sdi now clocks q running rc rid).runCount ∧
       (runLoop max sdi now clocks q running rc rid).runCount ≤ max) := by
  intro q
  induction q with
  | nil => intro now clocks running rc rid h1 h2 h3; exact ⟨h1, h2, h3⟩
  | cons t rest ih =>
    intro now clocks running rc rid h1 h2 h3
    rw [runLoop]
    by_cases hguard : rc < max ∧ sdi = false
    · rw [if_pos hguard]
      by_cases hcan : taskCanRun now (tblGet t.key running) = true
      · rw [if_pos hcan]
        simp only
        cases hget : tblGet t.key running with
        | none =>
          simp only [hget]
          exact ih (clocks.headD now) clocks.tail
            (tblSet t.key ⟨_, rid⟩ running) (rc + 1) (rid + 1)
            (tblSet_nodup _ _ running h1)
            (by rw [tblSet_length_absent _ _ running hget, h2])
            hguard.1
        | some rt0 =>
          simp only [hget]
          exact ih (clocks.headD now) clocks.tail
            (tblSet t.key ⟨_, rid⟩ running) rc (rid + 1)
            (tblSet_nodup _ _ running h1)
            (by rw [tblSet_length_present _ _ rt0 running hget, h2])
            h3
      · rw [if_neg hcan]
        simp only
        exact ih (clocks.headD now) clocks.tail running rc rid h1 h2 h3
    · rw [if_neg hguard]
      exact ⟨h1, h2, h3⟩

def QTblInv (max : Nat) (s : QState) : Prop :=
  (s.running.map Prod.fst).Nodup ∧ s.running.length = s.runCount ∧
    s.runCount ≤ max

theorem removeRunningTask_fields (key : String) (id : Nat) (s : QState) :
    (removeRunningTask key id s).queue = s.queue ∧
    (removeRunningTask key id s).executed = s.executed ∧
    (removeRunningTask key id s).submitted = s.submitted ∧
    (removeRunningTask key id s).submitSeq = s.submitSeq ∧
    (removeRunningTask key id s).shutdown = s.shutdown ∧
    (removeRunningTask key id s).shutdownImmediately = s.shutdownImmediately := by
  unfold removeRunningTask
  split
  · split
    · exact ⟨rfl, rfl, rfl, rfl, rfl, rfl⟩
    · exact ⟨rfl, rfl, rfl, rfl, rfl, rfl⟩
  · exact ⟨rfl, rfl, rfl, rfl, rfl, rfl⟩

theorem removeRunningTask_tblInv (max : Nat) (key : String) (id : Nat)
    (s : QState) (h : QTblInv max s) : QTblInv max (removeRunningTask key id s) := by
  unfold removeRunningTask
  split
  · rename_i rt hget
    split
    · have hlen := tblDel_length key rt s.running hget
      refine ⟨?_, ?_, ?_⟩
      · exact h.1.sublist (List.Sublist.map Prod.fst (tblDel_sublist key s.running))
      · have h2 := h.2.1
        simp only
        omega
      · have h3 := h.2.2
        simp only
        omega
    · exact h
  · exact h

theorem foldl_removeRunningTask_tblInv (max : Nat) :
    ∀ (pairs : List (String × Nat)) (s : QState), QTblInv max s →
      QTblInv max (pairs.foldl (fun st p => removeRunningTask p.1 p.2 st) s) := by
  intro pairs
  induction pairs with
  | nil => intro s h; exact h
  | cons p rest ih =>
    intro s h
    exact ih _ (removeRunningTask_tblInv max p.1 p.2 s h)

theorem qTblInv_applyEvent (max : Nat) (s : QState) (e : QEvent)
    (h : QTblInv max s) : QTblInv max (applyEvent max s e) := by
  cases e with
  | submit key rt =>
    simp only [applyEvent]
    split
    · exact h
    · exact h
  | runPass now clocks =>
    simp only [applyEvent]
    exact runLoop_tbl max s.shutdownImmediately s.queue now clocks s.running
      s.runCount s.runId h.1 h.2.1 h.2.2
  | complete key id => exact removeRunningTask_tblInv max key id s h
  | reap now => exact foldl_removeRunningTask_tblInv max _ s h
  | stop imm =>
    simp only [applyEvent]
    split
    · exact h
    · exact h
  | shutdownUpgrade => exact h

theorem qTblInv_applyEvents (max : Nat) :
    ∀ (evs : List QEvent) (s : QState), QTblInv max s →
      QTblInv max (applyEvents max evs s) := by
  intro evs
  induction evs with
  | nil => intro s h; exact h
  | cons e rest ih =>
    intro s h
    exact ih _ (qTblInv_applyEvent max s e h)

/-- C5: at every instant — i.e. in every state reachable by any sequence of
submit, dispatch, complete and reap transitions — the AsyncOpQueue's
running-task table holds at most `maxConcurrency` entries (at most that many
distinct partition keys are in the running state). -/
theorem asyncOpQueue_bounded_concurrency (max : Nat) (evs : List QEvent) :
    (applyEvents max evs initQState).running.length ≤ max := by
  have h := qTblInv_applyEvents max evs initQState ⟨by simp [initQState], rfl, Nat.zero_le max⟩
  rw [h.2.1]
  exact h.2.2

/-- Per-key projection of the ghost execution log onto submission seqs. -/
def exKeySeqs (k : String) (l : List ExecRec) : List Nat :=
  (l.filter (fun e => e.key == k)).map ExecRec.seq

/-- Per-key projection of a queue segment onto submission seqs. -/
def quKeySeqs (k : String) (l : List QItem) : List Nat :=
  (l.filter (fun t => t.key == k)).map QItem.seq

theorem exKeySeqs_append (k : String) (l1 l2 : List ExecRec) :
    exKeySeqs k (l1 ++ l2) = exKeySeqs k l1 ++ exKeySeqs k l2 := by
  simp [exKeySeqs]

theorem quKeySeqs_append (k : String) (l1 l2 : List QItem) :
    quKeySeqs k (l1 ++ l2) = quKeySeqs k l1 ++ quKeySeqs k l2 := by
  simp [quKeySeqs]

theorem exKeySeqs_cons (k : String) (e : ExecRec) (l : List ExecRec) :
    exKeySeqs k (e :: l) =
      (if e.key == k then [e.seq] else []) ++ exKeySeqs k l := by
  simp only [exKeySeqs, List.filter_cons]
  split
  · simp
  · simp

theorem quKeySeqs_cons (k : String) (t : QItem) (l : List QItem) :
    quKeySeqs k (t :: l) =
      (if t.key == k then [t.seq] else []) ++ quKeySeqs k l := by
  simp only [quKeySeqs, List.filter_cons]
  split
  · simp
  · simp

/-- A key whose running-task entry cannot run under any clock sample the
pass can observe (no expiration, or not expired at any of them) is untouched
by the dispatch pass, and no task with that key is invoked during it. -/
theorem runLoop_blocked_key (max : Nat) (sdi : Bool) :
    ∀ (q : List QItem) (now : Nat) (clocks : List Nat)
      (running : List (String × RunningTask)) (rc rid : Nat)
      (k : String) (r : RunningTask),
      tblGet k running = some r →
      (∀ c ∈ now :: clocks, taskCanRun c (some r) = false) →
      tblGet k (runLoop max sdi now clocks q running rc rid).running = some r ∧
      ∀ e ∈ (runLoop max sdi now clocks q running rc rid).execs, e.key ≠ k := by
  intro q
  induction q with
  | nil =>
    intro now clocks running rc rid k r hget hblock
    exact ⟨hget, by simp [runLoop]⟩
  | cons t rest ih =>
    intro now clocks running rc rid k r hget hblock
    have hblock2 : ∀ c ∈ (clocks.headD now) :: clocks.tail,
        taskCanRun c (some r) = false :=
      fun c hc => hblock c (mem_clock_step now clocks c hc)
    have hbnow : taskCanRun now (some r) = false :=
      hblock now (List.mem_cons_self _ _)
    rw [runLoop]
    by_cases hguard : rc < max ∧ sdi = false
    · rw [if_pos hguard]
      by_cases hcan : taskCanRun now (tblGet t.key running) = true
      · rw [if_pos hcan]
        simp only
        have hkne : t.key ≠ k := by
          intro hkeq
          rw [hkeq, hget, hbnow] at hcan
          cases hcan
        have hpres : tblGet k (tblSet t.key
            ⟨match t.runTimeout with
              | none => none
              | some rt => some (rt + now), rid⟩ running) = some r := by
          rw [tblGet_tblSet_ne k t.key _ hkne running]
          exact hget
        refine ⟨(ih _ _ _ _ (rid + 1) k r hpres hblock2).1, ?_⟩
        intro e he
        rcases List.mem_cons.mp he with rfl | hin
        · exact hkne
        · exact (ih _ _ _ _ (rid + 1) k r hpres hblock2).2 e hin
      · rw [if_neg hcan]
        simp only
        have hrec := ih (clocks.headD now) clocks.tail running rc rid k r
          hget hblock2
        exact ⟨hrec.1, hrec.2⟩
    · rw [if_neg hguard]
      exact ⟨hget, by simp⟩

/-- When every iteration of a dispatch pass observes the same clock value,
the pass splits each key's pending seqs into an executed part followed by
the still-queued part, in order.  (With a mid-pass clock tick this fails:
see `asyncOpQueue_fifo_clock_tick_violation`.) -/
theorem runLoop_split (max : Nat) (sdi : Bool) :
    ∀ (q : List QItem) (now : Nat) (clocks : List Nat)
      (running : List (String × RunningTask)) (rc rid : Nat) (k : String),
      (∀ c ∈ clocks, c = now) →
      exKeySeqs k (runLoop max sdi now clocks q running rc rid).execs ++
        quKeySeqs k (runLoop max sdi now clocks q running rc rid).remaining =
      quKeySeqs k q := by
  intro q
  induction q with
  | nil =>
    intro now clocks running rc rid k _
    simp [runLoop, exKeySeqs, quKeySeqs]
  | cons t rest ih =>
    intro now clocks running rc rid k hconst
    have hnow : clocks.headD now = now := by
      cases clocks with
      | nil => rfl
      | cons x xs => exact hconst x (List.mem_cons_self x xs)
    have htail : ∀ c ∈ clocks.tail, c = now := by
      intro c hc
      cases clocks with
      | nil => cases hc
      | cons x xs => exact hconst c (List.mem_cons_of_mem x hc)
    have ihinst := fun running2 rc2 rid2 =>
      ih now clocks.tail running2 rc2 rid2 k htail
    rw [runLoop]
    by_cases hguard : rc < max ∧ sdi = false
    · rw [if_pos hguard]
      by_cases hcan : taskCanRun now (tblGet t.key running) = true
      · rw [if_pos hcan]
        simp only
        rw [hnow]
        rw [exKeySeqs_cons, quKeySeqs_cons]
        simp only
        rw [List.append_assoc, ihinst]
      · rw [if_neg hcan]
        simp only
        rw [hnow]
        rw [quKeySeqs_cons, quKeySeqs_cons]
        have ihk := ihinst running rc rid
        by_cases hk : (t.key == k) = true
        · have hkeq : t.key = k := by simpa using hk
          cases hgetv : tblGet t.key running with
          | none =>
            rw [hgetv] at hcan
            simp [taskCanRun] at hcan
          | some r =>
            have hblock : taskCanRun now (some r) = false := by
              rw [hgetv] at hcan
              exact Bool.eq_false_iff.mpr hcan
            have hblockall : ∀ c ∈ now :: clocks.tail,
                taskCanRun c (some r) = false := by
              intro c hc
              rcases List.mem_cons.mp hc with rfl | hc2
              · exact hblock
              · rw [htail c hc2]
                exact hblock
            have hbl := runLoop_blocked_key max sdi rest now clocks.tail
              running rc rid k r (hkeq ▸ hgetv) hblockall
            have hex : exKeySeqs k
                (runLoop max sdi now clocks.tail rest running rc rid).execs = [] := by
              rw [exKeySeqs, List.filter_eq_nil_iff.mpr, List.map_nil]
              intro e he
              simpa using hbl.2 e he
            rw [hex] at ihk ⊢
            simp only [List.nil_append] at ihk ⊢
            simp [hk, ihk]
        · have hkf : (t.key == k) = false := Bool.eq_false_iff.mpr hk
          simp only [hkf, Bool.false_eq_true, if_false, List.nil_append]
          exact ihk
    · rw [if_neg hguard]
      simp [exKeySeqs]

/-- A dispatch pass all of whose clock samples are equal (the clock does not
tick while the loop runs); every other event is trivially clock-constant. -/
def constClockEvent : QEvent → Bool
  | QEvent.runPass now clocks => clocks.all (fun c => c == now)
  | _ => true

/-- The per-key ordering invariant: for every key, the seqs executed so far
followed by the seqs still queued are exactly the seqs submitted for that
key, in submission order; submitted seqs are strictly increasing. -/
def QOrdInv (s : QState) : Prop :=
  (∀ k : String, exKeySeqs k s.executed ++ quKeySeqs k s.queue =
     quKeySeqs k s.submitted) ∧
  (∀ t ∈ s.submitted, t.seq < s.submitSeq) ∧
  (s.submitted.map QItem.seq).Pairwise (fun a b => a < b)

theorem qOrdInv_applyEvent (max : Nat) (s : QState) (e : QEvent)
    (h : QOrdInv s) (hcc : constClockEvent e = true) :
    QOrdInv (applyEvent max s e) := by
  cases e with
  | submit key rt =>
    simp only [applyEvent]
    split
    · exact h
    · refine ⟨?_, ?_, ?_⟩
      · intro k
        simp only
        rw [quKeySeqs_append, quKeySeqs_append, ← List.append_assoc, h.1 k]
      · intro t ht
        simp only at ht ⊢
        rcases List.mem_append.mp ht with hin | hin
        · exact Nat.lt_succ_of_lt (h.2.1 t hin)
        · rcases List.mem_singleton.mp hin with rfl
          exact Nat.lt_succ_self _
      · simp only [List.map_append, List.map_cons, List.map_nil]
        rw [List.pairwise_append]
        refine ⟨h.2.2, List.pairwise_singleton _ _, ?_⟩
        intro a ha b hb
        rcases List.mem_singleton.mp hb with rfl
        rcases List.mem_map.mp ha with ⟨t, ht, rfl⟩
        exact h.2.1 t ht
  | runPass now clocks =>
    simp only [applyEvent]
    simp only [constClockEvent, List.all_eq_true, beq_iff_eq] at hcc
    refine ⟨?_, h.2.1, h.2.2⟩
    intro k
    simp only
    rw [exKeySeqs_append, List.append_assoc,
      runLoop_split max s.shutdownImmediately s.queue now clocks s.running
        s.runCount s.runId k hcc, h.1 k]
  | complete key id =>
    simp only [applyEvent]
    have hf := removeRunningTask_fields key id s
    refine ⟨?_, ?_, ?_⟩
    · intro k
      rw [hf.1, hf.2.1, hf.2.2.1]
      exact h.1 k
    · rw [hf.2.2.1, hf.2.2.2.1]
      exact h.2.1
    · rw [hf.2.2.1]
      exact h.2.2
  | reap now =>
    simp only [applyEvent]
    generalize (List.map (fun kv => (kv.1, kv.2.id))
      (List.filter (fun kv => taskExpiredAt now kv.2) s.running)) = pairs
    induction pairs generalizing s with
    | nil => exact h
    | cons p rest ih =>
      simp only [List.foldl_cons]
      apply ih
      have hf := removeRunningTask_fields p.1 p.2 s
      refine ⟨?_, ?_, ?_⟩
      · intro k
        rw [hf.1, hf.2.1, hf.2.2.1]
        exact h.1 k
      · rw [hf.2.2.1, hf.2.2.2.1]
        exact h.2.1
      · rw [hf.2.2.1]
        exact h.2.2
  | stop imm =>
    simp only [applyEvent]
    split
    · exact h
    · exact ⟨h.1, h.2.1, h.2.2⟩
  | shutdownUpgrade => exact ⟨h.1, h.2.1, h.2.2⟩

theorem qOrdInv_applyEvents (max : Nat) :
    ∀ (evs : List QEvent) (s : QState), QOrdInv s →
      (∀ e ∈ evs, constClockEvent e = true) →
      QOrdInv (applyEvents max evs s) := by
  intro evs
  induction evs with
  | nil => intro s h _; exact h
  | cons e rest ih =>
    intro s h hcc
    exact ih _
      (qOrdInv_applyEvent max s e h (hcc e (List.mem_cons_self e rest)))
      (fun e2 he2 => hcc e2 (List.mem_cons_of_mem e he2))

/-- A fixed trace exhibiting that tasks with distinct keys are not ordered:
with key "a" busy, a later-submitted "b" task runs before the earlier
"a" task.  Every pass observes a constant clock. -/
def crossKeyTrace : List QEvent :=
  [QEvent.submit "a" none, QEvent.runPass 0 [], QEvent.submit "a" none,
   QEvent.submit "b" none, QEvent.runPass 1 [], QEvent.complete "a" 0,
   QEvent.runPass 2 []]

/-- A trace where the clock ticks between two iterations of one dispatch
pass: key "a" holds an entry that times out at 10 (run id 0, from the
seq-0 task).  The pass `runPass 9 [10]` checks the queued seq-1 task at
clock 9 — not yet expired, so it is skipped — then its second iteration
samples `Date.now()` again and gets 10: the entry has now expired, so the
later-submitted seq-2 task is run first. -/
def clockTickTrace : List QEvent :=
  [QEvent.submit "a" (some 10), QEvent.runPass 0 [],
   QEvent.submit "a" none, QEvent.submit "a" none,
   QEvent.runPass 9 [10], QEvent.complete "a" 1, QEvent.runPass 11 []]

/-- C4 (amended): in every state reachable by events whose dispatch passes
each observe a constant clock (all `Date.now()` samples of the pass equal),
tasks submitted with the same partition key begin execution in submission
order — the execution log filtered to one key has strictly increasing
submission sequence numbers — while across distinct keys no ordering is
guaranteed (in `crossKeyTrace` the task submitted second — seq 1, key "a" —
begins execution after the task submitted third — seq 2, key "b").  The
constant-clock hypothesis is necessary:
`asyncOpQueue_fifo_clock_tick_violation` exhibits a pass with a mid-pass
clock tick that runs one key's tasks out of submission order. -/
theorem asyncOpQueue_fifo_per_key :
    (∀ (max : Nat) (evs : List QEvent) (k : String),
       (∀ e ∈ evs, constClockEvent e = true) →
       ((applyEvents max evs initQState).executed.filter
           (fun e => e.key == k)).Pairwise (fun a b => a.seq < b.seq)) ∧
    (applyEvents 300 crossKeyTrace initQState).executed.map ExecRec.seq =
      [0, 2, 1] := by
  constructor
  · intro max evs k hcc
    have h := qOrdInv_applyEvents max evs initQState
      ⟨fun k => rfl, by simp [initQState], by simp [initQState]⟩ hcc
    have h1 := h.1 k
    have hsubsorted :
        (quKeySeqs k (applyEvents max evs initQState).submitted).Pairwise
          (fun a b => a < b) := by
      refine List.Pairwise.sublist ?_ h.2.2
      exact List.Sublist.map QItem.seq (List.filter_sublist _)
    have hexsub : (exKeySeqs k (applyEvents max evs initQState).executed).Sublist
        (quKeySeqs k (applyEvents max evs initQState).submitted) := by
      rw [← h1]
      exact List.sublist_append_left _ _
    have hexsorted := List.Pairwise.sublist hexsub hsubsorted
    rw [exKeySeqs] at hexsorted
    exact List.pairwise_map.mp hexsorted
  · rfl

/-- Witness for `asyncOpQueue_fifo_per_key`: its per-key FIFO conclusion
instantiated at the constant-clock trace `crossKeyTrace` and key "a". -/
theorem asyncOpQueue_fifo_per_key_witness :
    ((applyEvents 300 crossKeyTrace initQState).executed.filter
        (fun e => e.key == "a")).Pairwise (fun a b => a.seq < b.seq) :=
  asyncOpQueue_fifo_per_key.1 300 crossKeyTrace "a" (by decide)

/-- Counterexample to per-key FIFO as originally claimed: with the source's
per-iteration `Date.now()` sampling, the trace `clockTickTrace` makes key
"a"'s tasks begin execution in the order seq 0, seq 2, seq 1 — the task
submitted third starts before the task submitted second, for one and the
same key. -/
theorem asyncOpQueue_fifo_clock_tick_violation :
    ((applyEvents 300 clockTickTrace initQState).executed.filter
        (fun e => e.key == "a")).map ExecRec.seq = [0, 2, 1] ∧
    ¬ ((applyEvents 300 clockTickTrace initQState).executed.filter
        (fun e => e.key == "a")).Pairwise (fun a b => a.seq < b.seq) := by
  constructor
  · rfl
  · decide

/-- Outcome of the promise a `submitPromiseTask` task runs. -/
inductive PromiseOutcome where
  | fulfilled
  | rejected
deriving DecidableEq

/-- `submitPromiseTask` (`src/AsyncOpQueue.ts`): with `catchErrors` the
wrapper chains both `then` (calling `onComplete`) and `catch` (also calling
`onComplete`); without it only `then` is chained, so a rejected promise
never invokes the completion callback. -/
def promiseTaskCallsOnComplete (catchErrors : Bool) (o : PromiseOutcome) : Bool :=
  if catchErrors then true
  else
    match o with
    | PromiseOutcome.fulfilled => true
    | PromiseOutcome.rejected => false

theorem tblGet_of_mem_nodup {α : Type} :
    ∀ (t : List (String × α)), (t.map Prod.fst).Nodup →
      ∀ p : String × α, p ∈ t → tblGet p.1 t = some p.2 := by
  intro t
  induction t with
  | nil => intro _ p hp; cases hp
  | cons q rest ih =>
    intro hnd p hp
    simp only [List.map_cons, List.nodup_cons] at hnd
    rcases List.mem_cons.mp hp with rfl | hin
    · rw [tblGet, if_pos rfl]
    · rw [tblGet]
      by_cases hq : q.1 = p.1
      · exfalso
        apply hnd.1
        rw [hq]
        exact List.mem_map_of_mem Prod.fst hin
      · rw [if_neg hq]
        exact ih hnd.2 p hin

theorem removeRunningTask_pres_get (k2 : String) (i2 : Nat) (k : String)
    (rt0 : RunningTask) (s : QState)
    (hget : tblGet k s.running = some rt0)
    (hne : k2 ≠ k ∨ rt0.id ≠ i2) :
    tblGet k (removeRunningTask k2 i2 s).running = some rt0 := by
  unfold removeRunningTask
  split
  · rename_i rt hg2
    split
    · rename_i hid
      by_cases hk : k2 = k
      · exfalso
        rw [hk, hget] at hg2
        rcases hne with hne | hne
        · exact hne hk
        · cases hg2
          exact hne hid
      · simp only
        rw [tblGet_tblDel_ne k k2 hk s.running]
        exact hget
    · exact hget
  · exact hget

theorem foldl_remove_pres_get (k : String) (rt0 : RunningTask) :
    ∀ (pairs : List (String × Nat)) (s : QState),
      tblGet k s.running = some rt0 →
      (∀ p ∈ pairs, p.1 ≠ k) →
      tblGet k ((pairs.foldl (fun st p => removeRunningTask p.1 p.2 st) s)).running =
        some rt0 := by
  intro pairs
  induction pairs with
  | nil => intro s hget _; exact hget
  | cons p rest ih =>
    intro s hget hall
    simp only [List.foldl_cons]
    refine ih _ ?_ (fun q hq => hall q (List.mem_cons_of_mem p hq))
    exact removeRunningTask_pres_get p.1 p.2 k rt0 s hget
      (Or.inl (hall p (List.mem_cons_self p rest)))

theorem foldl_remove_executed :
    ∀ (pairs : List (String × Nat)) (s : QState),
      ((pairs.foldl (fun st p => removeRunningTask p.1 p.2 st) s)).executed =
        s.executed := by
  intro pairs
  induction pairs with
  | nil => intro s; rfl
  | cons p rest ih =>
    intro s
    simp only [List.foldl_cons]
    rw [ih, (removeRunningTask_fields p.1 p.2 s).2.1]

/-- The reaper does not evict a running-task entry that has no expiration or
whose expiration has not yet passed. -/
theorem reap_pres_unexpired (max now : Nat) (s : QState) (k : String)
    (rt0 : RunningTask)
    (hnd : (s.running.map Prod.fst).Nodup)
    (hget : tblGet k s.running = some rt0)
    (hnexp : taskExpiredAt now rt0 = false) :
    tblGet k (applyEvent max s (QEvent.reap now)).running = some rt0 := by
  simp only [applyEvent]
  apply foldl_remove_pres_get k rt0 _ s hget
  intro p hp
  rcases List.mem_map.mp hp with ⟨kv, hkv, rfl⟩
  have hkv2 := List.mem_filter.mp hkv
  intro hk1
  have hkv3 : tblGet kv.1 s.running = some kv.2 :=
    tblGet_of_mem_nodup s.running hnd kv hkv2.1
  rw [hk1, hget] at hkv3
  cases hkv3
  rw [hkv2.2] at hnexp
  cases hnexp

/-- A key whose running entry has no expiration stays busy, with the same
run id, across every event other than its own `complete`; no task with that
key begins execution (whatever clock values the dispatch passes observe). -/
theorem stuck_key_applyEvents (max : Nat) (k : String) (i : Nat) :
    ∀ (evs : List QEvent) (s : QState),
      QTblInv max s →
      tblGet k s.running = some ⟨none, i⟩ →
      (∀ e ∈ evs, e ≠ QEvent.complete k i) →
      tblGet k (applyEvents max evs s).running = some ⟨none, i⟩ ∧
      (∀ e ∈ (applyEvents max evs s).executed, e.key = k → e ∈ s.executed) := by
  intro evs
  induction evs with
  | nil => intro s _ hget _; exact ⟨hget, fun e he _ => he⟩
  | cons ev rest ih =>
    intro s hinv hget hno
    have hinv2 := qTblInv_applyEvent max s ev hinv
    have hstep : tblGet k (applyEvent max s ev).running = some ⟨none, i⟩ ∧
        (∀ e ∈ (applyEvent max s ev).executed, e.key = k → e ∈ s.executed) := by
      cases ev with
      | submit key rt =>
        simp only [applyEvent]
        split
        · exact ⟨hget, fun e he _ => he⟩
        · exact ⟨hget, fun e he _ => he⟩
      | runPass now clocks =>
        simp only [applyEvent]
        have hb := runLoop_blocked_key max s.shutdownImmediately s.queue now
          clocks s.running s.runCount s.runId k ⟨none, i⟩ hget
          (fun c _ => rfl)
        refine ⟨hb.1, ?_⟩
        intro e he hek
        rcases List.mem_append.mp he with hin | hin
        · exact hin
        · exact absurd hek (hb.2 e hin)
      | complete key id =>
        simp only [applyEvent]
        have hne : key ≠ k ∨ (⟨none, i⟩ : RunningTask).id ≠ id := by
          by_cases hk : key = k
          · by_cases hid : id = i
            · exact absurd (by rw [hk, hid])
                (hno (QEvent.complete key id) (List.mem_cons_self _ _))
            · exact Or.inr (fun h2 => hid (h2.symm))
          · exact Or.inl hk
        refine ⟨removeRunningTask_pres_get key id k ⟨none, i⟩ s hget hne, ?_⟩
        intro e he _
        rw [(removeRunningTask_fields key id s).2.1] at he
        exact he
      | reap now =>
        refine ⟨reap_pres_unexpired max now s k ⟨none, i⟩ hinv.1 hget rfl, ?_⟩
        intro e he _
        simp only [applyEvent] at he
        rw [foldl_remove_executed] at he
        exact he
      | stop imm =>
        simp only [applyEvent]
        split
        · exact ⟨hget, fun e he _ => he⟩
        · exact ⟨hget, fun e he _ => he⟩
      | shutdownUpgrade => exact ⟨hget, fun e he _ => he⟩
    have hrec := ih (applyEvent max s ev) hinv2 hstep.1
      (fun e he => hno e (List.mem_cons_of_mem _ he))
    refine ⟨hrec.1, ?_⟩
    intro e he hek
    exact hstep.2 e (hrec.2 e he hek) hek

/-- C10: with catchErrors=false (the default), a task submitted via
submitPromiseTask whose promise rejects never invokes its completion
callback; consequently the running-task entry for its partition key is
removed only when the task's timeout expires — the reaper never evicts it
before the expiration — and if the task has no timeout, the key stays busy
forever: it survives every subsequent event (submits, dispatch passes,
reaps, completes of other tasks) and no later task for that key ever
begins execution. -/
theorem submitPromiseTask_no_catch_rejected :
    promiseTaskCallsOnComplete false PromiseOutcome.rejected = false ∧
    (∀ (max : Nat) (pre evs : List QEvent) (k : String) (i : Nat),
       tblGet k (applyEvents max pre initQState).running = some ⟨none, i⟩ →
       (∀ e ∈ evs, e ≠ QEvent.complete k i) →
       tblGet k (applyEvents max (pre ++ evs) initQState).running =
         some ⟨none, i⟩ ∧
       ∀ e ∈ (applyEvents max (pre ++ evs) initQState).executed,
         e.key = k → e ∈ (applyEvents max pre initQState).executed) ∧
    (∀ (max now : Nat) (pre : List QEvent) (k : String) (i expTime : Nat),
       tblGet k (applyEvents max pre initQState).running =
         some ⟨some expTime, i⟩ →
       now < expTime →
       tblGet k (applyEvents max (pre ++ [QEvent.reap now]) initQState).running =
         some ⟨some expTime, i⟩) := by
  refine ⟨rfl, ?_, ?_⟩
  · intro max pre evs k i hget hno
    have hinv := qTblInv_applyEvents max pre initQState
      ⟨by simp [initQState], rfl, Nat.zero_le max⟩
    rw [applyEvents, List.foldl_append]
    exact stuck_key_applyEvents max k i evs (applyEvents max pre initQState)
      hinv hget hno
  · intro max now pre k i expTime hget hlt
    have hinv := qTblInv_applyEvents max pre initQState
      ⟨by simp [initQState], rfl, Nat.zero_le max⟩
    rw [applyEvents, List.foldl_append]
    have := reap_pres_unexpired max now (applyEvents max pre initQState) k
      ⟨some expTime, i⟩ hinv.1 hget
      (by simp [taskExpiredAt]; omega)
    exact this

/-- Witness for C10 (`submitPromiseTask_no_catch_rejected`): key "a" runs a
task with no timeout at the first pass (entry `⟨none, 0⟩`); a later submit,
dispatch pass, reap and a completion with a different run id leave the
entry in place, and nothing with key "a" executes after the first pass. -/
theorem submitPromiseTask_no_catch_rejected_witness :
    tblGet "a" (applyEvents 300
        ([QEvent.submit "a" none, QEvent.runPass 0 []] ++
         [QEvent.submit "a" (some 5), QEvent.runPass 7 [8], QEvent.reap 9,
          QEvent.complete "a" 3]) initQState).running = some ⟨none, 0⟩ ∧
    ∀ e ∈ (applyEvents 300
        ([QEvent.submit "a" none, QEvent.runPass 0 []] ++
         [QEvent.submit "a" (some 5), QEvent.runPass 7 [8], QEvent.reap 9,
          QEvent.complete "a" 3]) initQState).executed,
      e.key = "a" → e ∈ (applyEvents 300
        [QEvent.submit "a" none, QEvent.runPass 0 []] initQState).executed :=
  submitPromiseTask_no_catch_rejected.2.1 300
    [QEvent.submit "a" none, QEvent.runPass 0 []]
    [QEvent.submit "a" (some 5), QEvent.runPass 7 [8], QEvent.reap 9,
     QEvent.complete "a" 3] "a" 0 (by decide) (by decide)

/-! ## Notification ingress (src/snsServer.ts)

`createDefaultRequestListener` reads the POST body, `JSON.parse`s it, runs
the sns-validator unless disabled, and branches on the message type; the
host-provided `JSON.parse` and signature validation are parameters of the
model (their outcome, not their implementation, drives the control flow).
The 200 is set at the end of the promise's `then` callback; the `catch`
around it is synchronous, so only a synchronous `JSON.parse` failure
produces the 500 — a rejected validation promise or a throwing listener
leaves the request unanswered. -/

/-- Split on a separator character (JavaScript `String.split`). -/
def splitOnChar (sep : Char) : List Char → List Char → List (List Char)
  | [], cur => [cur.reverse]
  | c :: rest, cur =>
    if c = sep then cur.reverse :: splitOnChar sep rest []
    else splitOnChar sep rest (c :: cur)

/-- `Number.parseInt` restricted to its use here (eventVersion components):
the leading decimal digits, `none` for NaN when there are none. -/
def jsParseInt (s : String) : Option Nat :=
  let digits := s.data.takeWhile (fun c => decide ('0' ≤ c ∧ c ≤ '9'))
  if digits = [] then none
  else some (digits.foldl (fun acc c => acc * 10 + (c.toNat - '0'.toNat)) 0)

/-- An S3 notification record (the fields the listener reads). -/
structure SnsRec where
  eventName : String
  eventVersion : String
  bucketName : String
  objectKey : String
deriving DecidableEq

/-- The version check of `createDefaultSnsNotificationListener`:
`splitEventVersion.length < 2 || parseInt(split[0]) !== 2 ||
parseInt(split[1]) < 1` (NaN compares unequal to 2 and NaN < 1 is false,
exactly as in JavaScript). -/
def eventVersionUnsupported (v : String) : Bool :=
  match (splitOnChar '.' v.data []).map (fun l => (⟨l⟩ : String)) with
  | p0 :: p1 :: _ =>
    decide (jsParseInt p0 ≠ some 2) ||
      (match jsParseInt p1 with
       | some m => decide (m < 1)
       | none => false)
  | _ => true

/-- The options the listener closes over. -/
structure SnsOpts where
  bucket : String
  keyStartFilter : Option String
  keySuffixFilter : Option String
  s3KeyTransformers : List (String → String)
  remove : Bool
  ignoreMessageValidation : Bool

/-- The per-record key filter:
`options.prefix && !(key.indexOf(options.prefix) === 0) ||
options.suffix && !key.endsWith(options.suffix)`. -/
def recordFiltered (opts : SnsOpts) (key : String) : Bool :=
  (match opts.keyStartFilter with
   | some p0 => !(strStartsWith key p0)
   | none => false) ||
  (match opts.keySuffixFilter with
   | some suf => !(strEndsWith key suf)
   | none => false)

/-- The record loop of `createDefaultSnsNotificationListener`
(`src/snsServer.ts`): an unsupported event version **throws**
(`throw new Error("Unsupported event version")`), aborting the remaining
records — returned here as the Boolean "threw" flag; a filtered key, a
foreign bucket or an unhandled event name skip just that record; otherwise
`ObjectCreated:*`/`ObjectRestore:*` submit a write and `ObjectRemoved:*`
submits an unlink of the transformed key. -/
def processRecords (opts : SnsOpts) : List SnsRec → List FileAction × Bool
  | [] => ([], false)
  | r :: rest =>
    if eventVersionUnsupported r.eventVersion then ([], true)
    else if recordFiltered opts r.objectKey then processRecords opts rest
    else
      let transformedKey := applyTransformersToKey r.objectKey opts.s3KeyTransformers
      if r.bucketName = opts.bucket then
        if strStartsWith r.eventName "ObjectCreated:" ||
            strStartsWith r.eventName "ObjectRestore:" then
          let res := processRecords opts rest
          (FileAction.writeObject r.objectKey transformedKey :: res.1, res.2)
        else if strStartsWith r.eventName "ObjectRemoved:" then
          let res := processRecords opts rest
          (FileAction.removeFile transformedKey :: res.1, res.2)
        else processRecords opts rest
      else processRecords opts rest

/-- The parsed fields of the outer envelope the request listener reads. -/
structure SnsMsgBody where
  msgType : String
  message : String
deriving DecidableEq

/-- What a request produces: the HTTP status written back (none when the
handler never responds) and the file actions submitted. -/
structure ReqOutcome where
  status : Option Nat
  actions : List FileAction
deriving DecidableEq

def listContains : List Char → List Char → Bool
  | [], pat => listStartsWith [] pat
  | c :: rest, pat => listStartsWith (c :: rest) pat || listContains rest pat

/-- JavaScript `s.indexOf(pat) >= 0`. -/
def strContains (s pat : String) : Bool := listContains s.data pat.data

/-- `createDefaultRequestListener` (`src/snsServer.ts`), driven by the
outcomes of the host calls: `parse1` is the `JSON.parse` of the body
(`none` = it threw, caught synchronously → 500); `validationOk` is the
sns-validator verdict; `decoded` is the `JSON.parse` of the inner `Message`
(`none` = it threw inside the `then` callback). -/
def handleRequest (opts : SnsOpts) (parse1 : Option SnsMsgBody)
    (validationOk : Bool) (decoded : Option (List SnsRec)) : ReqOutcome :=
  match parse1 with
  | none => ⟨some 500, []⟩
  | some body =>
    if opts.ignoreMessageValidation || validationOk then
      if body.msgType = "SubscriptionConfirmation" then ⟨some 200, []⟩
      else if body.msgType = "Notification" then
        if strContains body.message "Records" then
          match decoded with
          | none => ⟨none, []⟩
          | some recs =>
            let res := processRecords opts recs
            if res.2 then ⟨none, res.1⟩ else ⟨some 200, res.1⟩
        else ⟨some 200, []⟩
      else ⟨some 200, []⟩
    else ⟨none, []⟩

/-- C6 counterexample: with validation enabled and a failing signature
validation, the handler responds with **no** status at all — the rejected
promise has no catch handler — rather than the 500 the claim states; no
record is processed. -/
theorem snsServer_validation_failure_not_500 :
    handleRequest ⟨"b", none, none, [], false, false⟩
        (some ⟨"Notification", "Records"⟩) false (some []) = ⟨none, []⟩ ∧
    (⟨none, []⟩ : ReqOutcome).status ≠ some 500 := by
  constructor
  · rfl
  · decide

/-- C6 (amended): a body that fails to parse is answered 500 with no record
processed; a body whose signature validation fails is answered **not at
all** (the `then` chain never runs and the rejection is unhandled), with no
record processed; when validation passes or is disabled, a Notification
whose records process without throwing — and any non-Notification type —
is answered 200. -/
theorem snsServer_request_statuses :
    (∀ (opts : SnsOpts) (validationOk : Bool) (decoded : Option (List SnsRec)),
       handleRequest opts none validationOk decoded = ⟨some 500, []⟩) ∧
    (∀ (opts : SnsOpts) (b : SnsMsgBody) (decoded : Option (List SnsRec)),
       opts.ignoreMessageValidation = false →
       handleRequest opts (some b) false decoded = ⟨none, []⟩) ∧
    (∀ (opts : SnsOpts) (b : SnsMsgBody) (validationOk : Bool)
       (decoded : Option (List SnsRec)) (recs : List SnsRec),
       (opts.ignoreMessageValidation = true ∨ validationOk = true) →
       b.msgType = "Notification" → strContains b.message "Records" = true →
       decoded = some recs → (processRecords opts recs).2 = false →
       handleRequest opts (some b) validationOk decoded =
         ⟨some 200, (processRecords opts recs).1⟩) ∧
    (∀ (opts : SnsOpts) (b : SnsMsgBody) (validationOk : Bool)
       (decoded : Option (List SnsRec)),
       (opts.ignoreMessageValidation = true ∨ validationOk = true) →
       b.msgType ≠ "Notification" →
       handleRequest opts (some b) validationOk decoded = ⟨some 200, []⟩) := by
  refine ⟨?_, ?_, ?_, ?_⟩
  · intro opts validationOk decoded
    rfl
  · intro opts b decoded hig
    simp only [handleRequest, hig, Bool.false_or]
    rfl
  · intro opts b validationOk decoded recs hval htype hrec hdec hnothrow
    have hcond : (opts.ignoreMessageValidation || validationOk) = true := by
      rcases hval with h | h <;> simp [h]
    have htype2 : b.msgType ≠ "SubscriptionConfirmation" := by
      rw [htype]; decide
    simp only [handleRequest, hcond, if_true, if_neg htype2, if_pos htype,
      hrec, if_true, hdec]
    simp only [hnothrow, Bool.false_eq_true, if_false]
  · intro opts b validationOk decoded hval htype
    have hcond : (opts.ignoreMessageValidation || validationOk) = true := by
      rcases hval with h | h <;> simp [h]
    by_cases hsub : b.msgType = "SubscriptionConfirmation"
    · simp only [handleRequest, hcond, if_true, if_pos hsub]
    · simp only [handleRequest, hcond, if_true, if_neg hsub, if_neg htype]

/-- Witness for C6 (`snsServer_request_statuses`) at concrete inputs. -/
theorem snsServer_request_statuses_witness :
    handleRequest ⟨"b", none, none, [], false, false⟩ none true none =
      ⟨some 500, []⟩ ∧
    handleRequest ⟨"b", none, none, [], false, false⟩
        (some ⟨"Notification", "Records"⟩) false none = ⟨none, []⟩ ∧
    handleRequest ⟨"b", none, none, [], false, false⟩
        (some ⟨"Notification", "abcRecordsxyz"⟩) true (some []) =
      ⟨some 200, (processRecords ⟨"b", none, none, [], false, false⟩ []).1⟩ ∧
    handleRequest ⟨"b", none, none, [], false, false⟩
        (some ⟨"UnsubscribeConfirmation", ""⟩) true none = ⟨some 200, []⟩ :=
  ⟨snsServer_request_statuses.1 _ true none,
   snsServer_request_statuses.2.1 _ ⟨"Notification", "Records"⟩ none rfl,
   snsServer_request_statuses.2.2.1 _ ⟨"Notification", "abcRecordsxyz"⟩ true
     (some []) [] (Or.inr rfl) rfl (by decide) rfl rfl,
   snsServer_request_statuses.2.2.2 _ ⟨"UnsubscribeConfirmation", ""⟩ true none
     (Or.inr rfl) (by decide)⟩

/-- C7: the default notification listener **throws** on a record whose
eventVersion has an unsupported major or minor (the source's
`throw new Error("Unsupported event version")`, flagged `// return
instead?`): with a bad record first, the message's remaining records are
not processed at all — the same good record alone would produce its write —
and the thrown error propagates out of the listener (no response, unhandled
rejection), contradicting the claim's skip-only-that-record behaviour. -/
theorem snsListener_bad_version_aborts_message :
    processRecords ⟨"bkt", none, none, [], false, false⟩
        [⟨"ObjectCreated:Put", "1.0", "bkt", "x.txt"⟩,
         ⟨"ObjectCreated:Put", "2.2", "bkt", "y.txt"⟩] = ([], true) ∧
    processRecords ⟨"bkt", none, none, [], false, false⟩
        [⟨"ObjectCreated:Put", "2.2", "bkt", "y.txt"⟩] =
      ([FileAction.writeObject "y.txt" "y.txt"], false) ∧
    handleRequest ⟨"bkt", none, none, [], false, false⟩
        (some ⟨"Notification", "Records"⟩) true
        (some [⟨"ObjectCreated:Put", "1.0", "bkt", "x.txt"⟩,
               ⟨"ObjectCreated:Put", "2.2", "bkt", "y.txt"⟩]) = ⟨none, []⟩ := by
  refine ⟨rfl, rfl, rfl⟩
